import Mathlib

/-! FocusControl: keyboard navigation over search-result links.

A shallow embedding of `src/components/FocusControl.js`.

* DOM elements are opaque handles (`Elem`), compared by identity.
* The static element tree is a `Dom` record (`querySelector('a')` of a result
  entry, `parentElement`, which elements can take focus).
* The mutable world is one `State` record: the controller's instance fields
  together with the part of the document the controller reads or writes
  (`document.activeElement`, the `active` and `link` classes, the table of
  registered event listeners).
* A method that may throw a `TypeError` returns a `Completion`, which keeps the
  state reached at the moment of the throw.
* `KeyCode` is imported from `../const`, which is not part of the sources; the
  table is a parameter (`KeyCodeTable`).
-/

namespace FocusControl

/-- A DOM element handle; equality is object identity. -/
abbrev Elem := Nat

/-- The `KeyCode` table imported from `../const`. -/
structure KeyCodeTable where
  UP : Nat
  RIGHT : Nat
  DOWN : Nat
  TAB : Nat
  SHIFT : Nat
deriving DecidableEq, Repr

/-- The key codes are pairwise different. -/
def KeyCodeTable.Distinct (kc : KeyCodeTable) : Prop :=
  kc.UP ≠ kc.RIGHT ∧ kc.UP ≠ kc.DOWN ∧ kc.UP ≠ kc.TAB ∧ kc.UP ≠ kc.SHIFT ∧
  kc.RIGHT ≠ kc.DOWN ∧ kc.RIGHT ≠ kc.TAB ∧ kc.RIGHT ≠ kc.SHIFT ∧
  kc.DOWN ≠ kc.TAB ∧ kc.DOWN ≠ kc.SHIFT ∧ kc.TAB ≠ kc.SHIFT

instance (kc : KeyCodeTable) : Decidable kc.Distinct := by
  unfold KeyCodeTable.Distinct; infer_instance

/-- The usual DOM key codes: Tab 9, Shift 16, Up 38, Right 39, Down 40. -/
def domKeyCodes : KeyCodeTable := ⟨38, 39, 40, 9, 16⟩

/-- The static element tree, as far as the controller looks at it. -/
structure Dom where
  /-- The call `result.querySelector('a')`: the first anchor below a result entry, or null. -/
  anchor : Elem → Option Elem
  /-- The property `element.parentElement`, null at the root. -/
  parentElement : Elem → Option Elem
  /-- Whether the element can take focus: an `<a>` does only with an `href` or a
  `tabindex`, and `querySelector('a')` selects it either way. -/
  focusable : Elem → Bool
  /-- The anchor that `querySelector` finds below an entry is a descendant of the entry, so
  it has a parent element. -/
  anchor_parentElement : ∀ r l, anchor r = some l → parentElement l ≠ none

/-- The event names the controller subscribes to. -/
inductive EventName where
  | keydown
  | keyup
  | blur
deriving DecidableEq, Repr

/-- The four callbacks bound in the constructor; each is one function object. -/
inductive Callback where
  | _onLinkBlur
  | _onLinkFocus
  | _onDocumentKeydown
  | _onDocumentKeyup
deriving DecidableEq, Repr

/-- The record built by `_createListener`. -/
structure Listener where
  eventName : EventName
  callback : Callback
deriving DecidableEq, Repr

/-- An event target: the document or an element. -/
inductive Target where
  | document
  | element (e : Elem)
deriving DecidableEq, Repr

/-- The controller's fields and the document state it touches. -/
structure State where
  /-- The field `this._searchForm`. -/
  _searchForm : Elem
  /-- The field `this._results`: the entries found by `querySelectorAll`. -/
  _results : List Elem
  _linkListeners : List Listener
  _documentListeners : List Listener
  /-- A JS number; `Int` so that `length - 1` and `-= 1` are not truncated. -/
  _indexActiveLink : Int
  _isAnyLinkFocused : Bool
  /-- Left `undefined` (`none`) by the constructor. -/
  _isShiftPressed : Option Bool
  /-- Assigned by `_initLinks`; an item is `none` when `querySelector` gave null.
  The handlers that read it are registered only after that assignment. -/
  _links : List (Option Elem)
  /-- The values `undefined` and `null` are both `none`. -/
  _activeElement : Option Elem
  /-- The property `document.activeElement`. -/
  activeElement : Elem
  /-- The elements whose class list contains `active`. -/
  activeClass : List Elem
  /-- The elements whose class list contains `link`. -/
  linkClass : List Elem
  /-- The event listener lists of the document and of the elements, in registration order. -/
  listeners : List (Target × Listener)
deriving DecidableEq, Repr

/-- How a method call ends: it returns, or it throws (a `TypeError` on a
null or undefined receiver). The state reached is kept in both cases. -/
inductive Completion (α : Type) where
  | normal (a : α)
  | thrown (a : α)
deriving DecidableEq, Repr

/-- The state a call ends in, whether it returned or threw. -/
def Completion.state {α : Type} : Completion α → α
  | .normal a => a
  | .thrown a => a

/-- Whether the call returned. -/
def Completion.isNormal {α : Type} : Completion α → Bool
  | .normal _ => true
  | .thrown _ => false

/-- Sequencing of statements: a throw skips what follows. -/
def Completion.andThen {α : Type} (c : Completion α) (f : α → Completion α) : Completion α :=
  match c with
  | .normal a => f a
  | .thrown a => .thrown a

/-- A keyboard event, as far as the handlers look at it. -/
structure KeyboardEvent where
  keyCode : Nat
  defaultPrevented : Bool
deriving DecidableEq, Repr

/-- The call `evt.preventDefault()`. -/
def KeyboardEvent.preventDefault (evt : KeyboardEvent) : KeyboardEvent :=
  { evt with defaultPrevented := true }

/-- Pair the outcome of a call made inside a key handler with the handler's event. -/
def Completion.withEvent (c : Completion State) (evt : KeyboardEvent) :
    Completion (State × KeyboardEvent) :=
  match c with
  | .normal s => .normal (s, evt)
  | .thrown s => .thrown (s, evt)

/-! ## DOM primitives -/

/-- The call `classList.toggle(name, true)` on element `e`, for the class whose members are `cls`. -/
def classListAdd (e : Elem) (cls : List Elem) : List Elem :=
  if e ∈ cls then cls else cls ++ [e]

/-- The call `classList.toggle(name, false)` on element `e`. -/
def classListRemove (e : Elem) (cls : List Elem) : List Elem :=
  cls.filter (fun x => x ≠ e)

/-- The call `target.addEventListener(eventName, callback)`: a listener with the same
event name and the same callback object already in the target's list is not added again. -/
def addEventListener (t : Target) (l : Listener) (ls : List (Target × Listener)) :
    List (Target × Listener) :=
  if (t, l) ∈ ls then ls else ls ++ [(t, l)]

/-- The callbacks registered on target `t` for event `n`, in registration order. -/
def listenersOf (t : Target) (n : EventName) (ls : List (Target × Listener)) : List Callback :=
  (ls.filter (fun p => p.1 = t ∧ p.2.eventName = n)).map (fun p => p.2.callback)

/-- JS `array.indexOf(x)`: the first index holding `x`, or `-1`. -/
def arrayIndexOf {α : Type} [DecidableEq α] (array : List α) (x : α) : Int :=
  if x ∈ array then (array.indexOf x : Nat) else -1

/-- The loop of JS `array.filter(callback)`, the callback receiving item and index. -/
def arrayFilterFrom {α : Type} (p : α → Nat → Bool) : List α → Nat → List α
  | [], _ => []
  | x :: xs, i => if p x i then x :: arrayFilterFrom p xs (i + 1) else arrayFilterFrom p xs (i + 1)

/-- JS `array.filter((item, index, array) => ...)`. -/
def arrayFilter {α : Type} (p : α → Nat → List α → Bool) (array : List α) : List α :=
  arrayFilterFrom (fun x i => p x i array) array 0

/-- JS `array[i]` on an array of elements-or-null: `none` stands for both
`undefined` (index out of range) and `null`. -/
def arrayGet (array : List (Option Elem)) (i : Int) : Option Elem :=
  if 0 ≤ i then (array[i.toNat]?).join else none

/-! ## The controller -/

/-- The constructor, given the entries `querySelectorAll` returns and the document state
at that moment. -/
def constructor (results : List Elem) (searchForm : Elem) (activeElement : Elem)
    (activeClass linkClass : List Elem) : State :=
  { _searchForm := searchForm
    _results := results
    _linkListeners := []
    _documentListeners := []
    _indexActiveLink := 0
    _isAnyLinkFocused := false
    _isShiftPressed := none
    _links := []
    _activeElement := none
    activeElement := activeElement
    activeClass := activeClass
    linkClass := linkClass
    listeners := [] }

/-- The getter `_isSearchFormFocused`. -/
def _isSearchFormFocused (s : State) : Bool :=
  s.activeElement = s._searchForm

def _createListener (eventName : EventName) (callback : Callback) : Listener :=
  { eventName := eventName, callback := callback }

def _fillListeners (s : State) : State :=
  let s1 := { s with _documentListeners :=
    s._documentListeners ++ [_createListener .keydown ._onDocumentKeydown] }
  let s2 := { s1 with _documentListeners :=
    s1._documentListeners ++ [_createListener .keyup ._onDocumentKeyup] }
  { s2 with _linkListeners := s2._linkListeners ++ [_createListener .blur ._onLinkBlur] }

/-- The method `_setListeners(element, listeners)`. -/
def _setListeners (element : Target) : List Listener → State → State
  | [], s => s
  | l :: ls, s =>
    _setListeners element ls { s with listeners := addEventListener element l s.listeners }

def _blur (s : State) : Completion State :=
  let s1 := { s with _isAnyLinkFocused := false }
  match s1._activeElement with
  | none => .thrown s1
  | some w =>
    .normal { s1 with activeClass := classListRemove w s1.activeClass, _activeElement := none }

/-- Run one callback for a `blur` event. An exception thrown by a listener is reported
by the dispatcher and not propagated. The event object has no `keyCode` and no `focus`
method: the two key handlers do nothing with it, and `_focus` throws at its first
statement. -/
def invokeOnBlur (cb : Callback) (s : State) : State :=
  match cb with
  | ._onLinkBlur => (_blur s).state
  | ._onLinkFocus => s
  | ._onDocumentKeydown => s
  | ._onDocumentKeyup => s

/-- Fire a `blur` event at element `e`. -/
def dispatchBlur (e : Elem) (s : State) : State :=
  (listenersOf (.element e) .blur s.listeners).foldl (fun s cb => invokeOnBlur cb s) s

/-- The document's focus moves to element `e`: nothing happens when the element already
has focus; otherwise the element losing focus gets its `blur` event and then `e` becomes
`document.activeElement`. -/
def moveFocus (e : Elem) (s : State) : State :=
  if s.activeElement = e then s
  else { dispatchBlur s.activeElement s with activeElement := e }

/-- The DOM method `element.focus()`: focus moves to the element if it is focusable, and
nothing happens if it is not. -/
def focus (dom : Dom) (e : Elem) (s : State) : State :=
  if dom.focusable e then moveFocus e s else s

def _focus (dom : Dom) (link : Option Elem) (s : State) : Completion State :=
  match link with
  | none => .thrown s
  | some l =>
    -- `link.scrollIntoView` moves the viewport only
    let s1 := focus dom l s
    match dom.parentElement l with
    | none => .thrown s1
    | some p =>
      let s2 := { s1 with _activeElement := dom.parentElement p }
      match s2._activeElement with
      | none => .thrown s2
      | some w => .normal { s2 with activeClass := classListAdd w s2.activeClass }

/-- The body of the `forEach` in `_setLink`, over the listeners still to visit. -/
def _setLinkLoop (link : Option Elem) : List Listener → State → Completion State
  | [], s => .normal s
  | l :: ls, s =>
    match link with
    | none => .thrown s
    | some e =>
      _setLinkLoop link ls
        { s with listeners := addEventListener (.element e) l s.listeners,
                 linkClass := classListAdd e s.linkClass }

/-- The method `_setLink(link)`; the value returned is `link` itself. -/
def _setLink (link : Option Elem) (s : State) : Completion State :=
  _setLinkLoop link s._linkListeners s

/-- The `.map(result => this._setLink(result.querySelector('a')))` of `_initLinks`:
the mapped array built so far is `acc`. -/
def _initLinksMap (dom : Dom) : List Elem → List (Option Elem) → State →
    Completion (List (Option Elem) × State)
  | [], acc, s => .normal (acc, s)
  | r :: rs, acc, s =>
    match _setLink (dom.anchor r) s with
    | .thrown s1 => .thrown (acc, s1)
    | .normal s1 => _initLinksMap dom rs (acc ++ [dom.anchor r]) s1

def _initLinks (dom : Dom) (s : State) : Completion State :=
  match _initLinksMap dom s._results [] s with
  | .thrown (_, s1) => .thrown s1
  | .normal (mapped, s1) =>
    let links :=
      arrayFilter (fun link index array => arrayIndexOf array link = (index : Int)) mapped
    .normal { s1 with _links := links }

def _up (dom : Dom) (s : State) : Completion State :=
  let s1 :=
    if !(s._indexActiveLink = 0) then { s with _indexActiveLink := s._indexActiveLink - 1 }
    else { s with _indexActiveLink := 0 }
  _focus dom (arrayGet s1._links s1._indexActiveLink) s1

def _down (dom : Dom) (s : State) : Completion State :=
  let s1 :=
    if !(s._indexActiveLink = (s._links.length : Int) - 1) then
      { s with _indexActiveLink := s._indexActiveLink + 1 }
    else { s with _indexActiveLink := (s._links.length : Int) - 1 }
  _focus dom (arrayGet s1._links s1._indexActiveLink) s1

def _keydown (kc : KeyCodeTable) (dom : Dom) (evt : KeyboardEvent) (s : State) :
    Completion (State × KeyboardEvent) :=
  if !(_isSearchFormFocused s) then
    ((((Completion.andThen
      (if evt.keyCode = kc.UP then (_up dom s).withEvent evt.preventDefault
       else .normal (s, evt))
      (fun (s, evt) =>
        if evt.keyCode = kc.RIGHT then
          if s._indexActiveLink = (s._links.length : Int) - 1 then
            .normal (s, evt.preventDefault)
          else .normal (s, evt)
        else .normal (s, evt))).andThen
      (fun (s, evt) =>
        if evt.keyCode = kc.DOWN then (_down dom s).withEvent evt.preventDefault
        else .normal (s, evt))).andThen
      (fun (s, evt) =>
        if evt.keyCode = kc.TAB then
          if s._isShiftPressed = some true then (_up dom s).withEvent evt.preventDefault
          else (_down dom s).withEvent evt.preventDefault
        else .normal (s, evt))).andThen
      (fun (s, evt) =>
        if evt.keyCode = kc.SHIFT then .normal ({ s with _isShiftPressed := some true }, evt)
        else .normal (s, evt)))
  else .normal (s, evt)

def _keyup (kc : KeyCodeTable) (evt : KeyboardEvent) (s : State) : State :=
  if evt.keyCode = kc.SHIFT then { s with _isShiftPressed := some false } else s

def init (dom : Dom) (s : State) : Completion State :=
  (_initLinks dom (_fillListeners s)).andThen fun s2 =>
    _focus dom (arrayGet s2._links 0) (_setListeners .document s2._documentListeners s2)

/-! ## The document's event loop -/

/-- Run one callback for a keyboard event. An exception thrown by a listener is reported
by the dispatcher and not propagated. Called with an event, `_blur` ignores it and `_focus`
throws at its first statement (an event has no `focus` method). -/
def invokeOnKey (kc : KeyCodeTable) (dom : Dom) (cb : Callback) (p : State × KeyboardEvent) :
    State × KeyboardEvent :=
  match cb with
  | ._onDocumentKeydown => (_keydown kc dom p.2 p.1).state
  | ._onDocumentKeyup => (_keyup kc p.2 p.1, p.2)
  | ._onLinkBlur => ((_blur p.1).state, p.2)
  | ._onLinkFocus => p

/-- Fire a keyboard event named `n` with the given key code at the document (where it
arrives by bubbling; the controller registers no key listener on an element). The result
is the state after all listeners ran, and the event with its `defaultPrevented` flag. -/
def dispatchKey (kc : KeyCodeTable) (dom : Dom) (n : EventName) (keyCode : Nat) (s : State) :
    State × KeyboardEvent :=
  (listenersOf .document n s.listeners).foldl (fun p cb => invokeOnKey kc dom cb p)
    (s, { keyCode := keyCode, defaultPrevented := false })

/-- What the environment can do to the page after `init()`. -/
inductive Event where
  /-- A key goes down. -/
  | keydown (keyCode : Nat)
  /-- A key goes up. -/
  | keyup (keyCode : Nat)
  /-- A `blur` event is fired at element `e` while `document.activeElement` stays
  (the window is deactivated, or the event is synthetic). -/
  | blur (e : Elem)
  /-- Focus moves to element `e` by a click or by a key's default action: the element
  losing focus gets its `blur` event first. -/
  | focusMove (e : Elem)
deriving DecidableEq, Repr

/-- One turn of the event loop. -/
def step (kc : KeyCodeTable) (dom : Dom) (ev : Event) (s : State) : State :=
  match ev with
  | .keydown k => (dispatchKey kc dom .keydown k s).1
  | .keyup k => (dispatchKey kc dom .keyup k s).1
  | .blur e => dispatchBlur e s
  | .focusMove e => moveFocus e s

/-- The state after a sequence of events, oldest first. -/
def run (kc : KeyCodeTable) (dom : Dom) (evs : List Event) (s : State) : State :=
  evs.foldl (fun s ev => step kc dom ev s) s

/-! ## Sample pages -/

/-- Three entries 10, 20, 30; entry `r` holds link `r + 2` inside wrapper `r + 1`, and the
entry wrapper two levels above a link is reached as `parentElement.parentElement`. The
links listed in `noHref` are anchors without `href`, which cannot take focus. -/
def page3With (noHref : List Elem) : Dom :=
  { anchor := fun r => if r = 10 ∨ r = 20 ∨ r = 30 then some (r + 2) else none
    parentElement := fun e =>
      if e = 12 ∨ e = 22 ∨ e = 32 then some (e - 1)
      else if e = 11 ∨ e = 21 ∨ e = 31 then some (e - 1)
      else none
    focusable := fun e => decide (e ∉ noHref)
    anchor_parentElement := by
      intro r l h
      replace h : (if r = 10 ∨ r = 20 ∨ r = 30 then some (r + 2) else none) = some l := h
      by_cases hr : r = 10 ∨ r = 20 ∨ r = 30
      · rw [if_pos hr] at h
        cases h
        rcases hr with rfl | rfl | rfl <;> decide
      · rw [if_neg hr] at h
        cases h }

/-- The three-entry page with every link focusable. -/
def page3 : Dom := page3With []

/-- Two entries 10 and 20 that resolve to the same anchor 12, which sits in wrapper 11 inside
entry 10. -/
def pageShared : Dom :=
  { anchor := fun r => if r = 10 ∨ r = 20 then some 12 else none
    parentElement := fun e => if e = 12 then some 11 else if e = 11 then some 10 else none
    focusable := fun _ => true
    anchor_parentElement := by
      intro r l h
      replace h : (if r = 10 ∨ r = 20 then some 12 else none) = some l := h
      by_cases hr : r = 10 ∨ r = 20
      · rw [if_pos hr] at h
        cases h
        decide
      · rw [if_neg hr] at h
        cases h }

/-- A controller on `page3`, search input 1, focus initially on the body (element 0). -/
def ctl3 : State := constructor [10, 20, 30] 1 0 [] []

end FocusControl

namespace FocusControl

/-! ## The specification's reading of the link list -/

/-- The items of a sequence in order, an item being dropped when it occurred before:
`seen` holds the items met so far. -/
def keepFirst {α : Type} [DecidableEq α] (seen : List α) : List α → List α
  | [] => []
  | x :: xs => if x ∈ seen then keepFirst seen xs else x :: keepFirst (seen ++ [x]) xs

/-- The sequence with every occurrence of an item after its first one removed. -/
def firstOccurrences {α : Type} [DecidableEq α] (xs : List α) : List α :=
  keepFirst [] xs

/-! ## Predicates on states -/

/-- The fields that no handler writes once `init()` is over. -/
def Frame (s t : State) : Prop :=
  t._searchForm = s._searchForm ∧ t._results = s._results ∧
  t._linkListeners = s._linkListeners ∧ t._documentListeners = s._documentListeners ∧
  t._links = s._links ∧ t.linkClass = s.linkClass ∧ t.listeners = s.listeners

/-- The frame of the focus and blur operations: they also leave the index and the
shift flag alone. -/
def FocusFrame (s t : State) : Prop :=
  Frame s t ∧ t._indexActiveLink = s._indexActiveLink ∧ t._isShiftPressed = s._isShiftPressed

/-- The fields that `init()` leaves alone until it focuses the first link. -/
def SetupFrame (s t : State) : Prop :=
  t._searchForm = s._searchForm ∧ t._results = s._results ∧
  t._indexActiveLink = s._indexActiveLink ∧ t._isShiftPressed = s._isShiftPressed ∧
  t.activeElement = s.activeElement ∧ t.activeClass = s.activeClass ∧
  t._activeElement = s._activeElement ∧ t._isAnyLinkFocused = s._isAnyLinkFocused

/-- The entry wrapper of a link: `link.parentElement.parentElement`. -/
def wrapper (dom : Dom) (l : Elem) : Option Elem :=
  (dom.parentElement l).bind dom.parentElement

/-- Every link of the list carries the controller's blur listener. -/
def LinksListen (s : State) : Prop :=
  ∀ l, some l ∈ s._links →
    Callback._onLinkBlur ∈ listenersOf (.element l) .blur s.listeners

/-- While an active element is stored, the focused element is a link of the list and the
stored element is that link's entry wrapper. -/
def ActiveTracksFocus (dom : Dom) (s : State) : Prop :=
  ∀ w, s._activeElement = some w →
    some s.activeElement ∈ s._links ∧ wrapper dom s.activeElement = some w

/-- An element carrying `active` either carried it before the controller was built
(`initial`) or is the stored active element. -/
def ActiveClassOwned (initial : List Elem) (s : State) : Prop :=
  ∀ e, e ∈ s.activeClass → e ∈ initial ∨ s._activeElement = some e

/-- Every link of the list can take focus. -/
def LinksFocusable (dom : Dom) (s : State) : Prop :=
  ∀ l, some l ∈ s._links → dom.focusable l = true

/-- The invariant behind the single active element, for focusable links. -/
def ActiveInv (dom : Dom) (initial : List Elem) (s : State) : Prop :=
  (LinksListen s ∧ LinksFocusable dom s) ∧ ActiveTracksFocus dom s ∧
    ActiveClassOwned initial s

/-- The setup loops only add listener registrations and keep the listener arrays and the
link list. -/
def Grows (s t : State) : Prop :=
  t._linkListeners = s._linkListeners ∧ t._documentListeners = s._documentListeners ∧
  t._links = s._links ∧ ∀ x, x ∈ s.listeners → x ∈ t.listeners

/-- The document carries the key listeners of exactly one `init()`. -/
def DocListens (s : State) : Prop :=
  listenersOf .document .keydown s.listeners = [Callback._onDocumentKeydown] ∧
  listenersOf .document .keyup s.listeners = [Callback._onDocumentKeyup]

/-- The document carries no key listener: `init()` threw before registering them. -/
def DocSilent (s : State) : Prop :=
  listenersOf .document .keydown s.listeners = [] ∧
  listenersOf .document .keyup s.listeners = [] ∧
  s._links = [] ∧ s._indexActiveLink = 0

/-- A state reached from a freshly constructed controller by one `init()` followed by
any sequence of events. -/
def Reachable (kc : KeyCodeTable) (dom : Dom) (s : State) : Prop :=
  ∃ (results : List Elem) (searchForm activeElement : Elem) (activeClass linkClass : List Elem)
    (evs : List Event),
    s = run kc dom evs
      (init dom (constructor results searchForm activeElement activeClass linkClass)).state

/-- The active index lies in `[0, length - 1]`. -/
def IndexInBounds (s : State) : Prop :=
  0 ≤ s._indexActiveLink ∧ s._indexActiveLink ≤ (s._links.length : Int) - 1

instance (s : State) : Decidable (IndexInBounds s) := by
  unfold IndexInBounds; infer_instance

/-- The claim's reading of "Shift is held" after the events `evs`: some Shift keydown has
no Shift keyup after it. -/
def ShiftDownSince (kc : KeyCodeTable) (evs : List Event) : Prop :=
  ∃ pre post, evs = pre ++ Event.keydown kc.SHIFT :: post ∧ Event.keyup kc.SHIFT ∉ post

/-- Some Shift keydown that arrived while the search input was not focused has no Shift
keyup after it; `s0` is the state the events start from. -/
def UngatedShiftDownSince (kc : KeyCodeTable) (dom : Dom) (s0 : State) (evs : List Event) :
    Prop :=
  ∃ pre post, evs = pre ++ Event.keydown kc.SHIFT :: post ∧
    (run kc dom pre s0).activeElement ≠ (run kc dom pre s0)._searchForm ∧
    Event.keyup kc.SHIFT ∉ post

/-- The registrations a first `init()` leaves behind: every anchor of an entry carries the
blur listener, the document carries the two key listeners, and the listener arrays hold
nothing but records of these callbacks. -/
def Registered (dom : Dom) (s : State) : Prop :=
  (∀ r, r ∈ s._results → ∀ e, dom.anchor r = some e →
    (Target.element e, ({ eventName := .blur, callback := ._onLinkBlur } : Listener)) ∈
      s.listeners) ∧
  (Target.document, ({ eventName := .keydown, callback := ._onDocumentKeydown } : Listener)) ∈
    s.listeners ∧
  (Target.document, ({ eventName := .keyup, callback := ._onDocumentKeyup } : Listener)) ∈
    s.listeners ∧
  (∀ l, l ∈ s._linkListeners → l = { eventName := .blur, callback := ._onLinkBlur }) ∧
  (∀ l, l ∈ s._documentListeners →
    l = { eventName := .keydown, callback := ._onDocumentKeydown } ∨
    l = { eventName := .keyup, callback := ._onDocumentKeyup })

/-- While an active element is stored, it is the entry wrapper of the link at the active
index. -/
def InSync (dom : Dom) (s : State) : Prop :=
  ∀ w, s._activeElement = some w →
    ∃ l, arrayGet s._links s._indexActiveLink = some l ∧ wrapper dom l = some w

end FocusControl

namespace FocusControl

/-! ## Basic facts about the primitives -/

theorem andThen_state_ind {α : Type} (P : α → Prop) (c : Completion α) (f : α → Completion α)
    (hc : P c.state) (hf : ∀ a, P a → P (f a).state) : P (c.andThen f).state := by
  cases c with
  | normal a => exact hf a hc
  | thrown a => exact hc

theorem withEvent_state (c : Completion State) (evt : KeyboardEvent) :
    (c.withEvent evt).state = (c.state, evt) := by
  cases c <;> rfl

@[simp] theorem state_normal {α : Type} (a : α) : (Completion.normal a).state = a := rfl

@[simp] theorem state_thrown {α : Type} (a : α) : (Completion.thrown a).state = a := rfl

theorem _blur_none (s : State) (h : s._activeElement = none) :
    _blur s = .thrown { s with _isAnyLinkFocused := false } := by
  simp [_blur, h]

theorem _blur_some (s : State) (w : Elem) (h : s._activeElement = some w) :
    _blur s = .normal { s with _isAnyLinkFocused := false,
                               activeClass := classListRemove w s.activeClass,
                               _activeElement := none } := by
  simp [_blur, h]

theorem _focus_none (dom : Dom) (s : State) : _focus dom none s = .thrown s := rfl

theorem _focus_noParent (dom : Dom) (l : Elem) (s : State) (hp : dom.parentElement l = none) :
    _focus dom (some l) s = .thrown (focus dom l s) := by
  simp [_focus, hp]

theorem _focus_noWrapper (dom : Dom) (l p : Elem) (s : State)
    (hp : dom.parentElement l = some p) (hw : dom.parentElement p = none) :
    _focus dom (some l) s = .thrown { focus dom l s with _activeElement := none } := by
  simp [_focus, hp, hw]

theorem _focus_ok (dom : Dom) (l p w : Elem) (s : State)
    (hp : dom.parentElement l = some p) (hw : dom.parentElement p = some w) :
    _focus dom (some l) s =
      .normal { focus dom l s with _activeElement := some w,
                                   activeClass := classListAdd w (focus dom l s).activeClass } := by
  simp [_focus, hp, hw]

theorem blur_state_idem (s : State) : (_blur (_blur s).state).state = (_blur s).state := by
  unfold _blur
  cases h : s._activeElement <;> simp [Completion.state, h]

theorem foldl_invokeOnBlur (cbs : List Callback) (s : State) :
    cbs.foldl (fun s cb => invokeOnBlur cb s) s =
      if Callback._onLinkBlur ∈ cbs then (_blur s).state else s := by
  induction cbs generalizing s with
  | nil => simp
  | cons cb cbs ih =>
    rw [List.foldl_cons, ih]
    cases cb <;> simp [invokeOnBlur, blur_state_idem]

/-- Firing `blur` at an element runs `_blur` once if the element carries the controller's
blur listener, and does nothing otherwise. -/
theorem dispatchBlur_eq (e : Elem) (s : State) :
    dispatchBlur e s =
      if Callback._onLinkBlur ∈ listenersOf (.element e) .blur s.listeners then (_blur s).state
      else s := by
  unfold dispatchBlur
  exact foldl_invokeOnBlur _ s

theorem dispatchBlur_ind (P : State → Prop) (hb : ∀ s, P s → P (_blur s).state)
    (e : Elem) (s : State) (hs : P s) : P (dispatchBlur e s) := by
  rw [dispatchBlur_eq]
  split
  · exact hb s hs
  · exact hs

/-! ## Frames -/

theorem frame_refl (s : State) : Frame s s := by simp [Frame]

theorem frame_trans {s t u : State} (h1 : Frame s t) (h2 : Frame t u) : Frame s u := by
  obtain ⟨a1, a2, a3, a4, a5, a6, a7⟩ := h1
  obtain ⟨b1, b2, b3, b4, b5, b6, b7⟩ := h2
  exact ⟨b1.trans a1, b2.trans a2, b3.trans a3, b4.trans a4, b5.trans a5, b6.trans a6,
    b7.trans a7⟩

theorem focusFrame_refl (s : State) : FocusFrame s s := ⟨frame_refl s, rfl, rfl⟩

theorem focusFrame_trans {s t u : State} (h1 : FocusFrame s t) (h2 : FocusFrame t u) :
    FocusFrame s u :=
  ⟨frame_trans h1.1 h2.1, h2.2.1.trans h1.2.1, h2.2.2.trans h1.2.2⟩

theorem blur_focusFrame (s : State) : FocusFrame s (_blur s).state := by
  unfold _blur
  cases h : s._activeElement <;> simp [Completion.state, h, FocusFrame, Frame]

theorem dispatchBlur_focusFrame (e : Elem) (s : State) : FocusFrame s (dispatchBlur e s) :=
  dispatchBlur_ind (FocusFrame s) (fun _ h => focusFrame_trans h (blur_focusFrame _)) e s
    (focusFrame_refl s)

theorem moveFocus_focusFrame (e : Elem) (s : State) : FocusFrame s (moveFocus e s) := by
  unfold moveFocus
  split
  · exact focusFrame_refl s
  · have h := dispatchBlur_focusFrame s.activeElement s
    simpa [FocusFrame, Frame] using h

theorem focus_of_focusable (dom : Dom) (e : Elem) (s : State) (h : dom.focusable e = true) :
    focus dom e s = moveFocus e s := by
  unfold focus
  rw [if_pos h]

theorem focus_of_not_focusable (dom : Dom) (e : Elem) (s : State)
    (h : dom.focusable e = false) : focus dom e s = s := by
  unfold focus
  rw [h]
  rfl

theorem focus_focusFrame (dom : Dom) (e : Elem) (s : State) :
    FocusFrame s (focus dom e s) := by
  unfold focus
  split
  · exact moveFocus_focusFrame e s
  · exact focusFrame_refl s

theorem _focus_focusFrame (dom : Dom) (link : Option Elem) (s : State) :
    FocusFrame s (_focus dom link s).state := by
  cases link with
  | none => exact focusFrame_refl s
  | some l =>
    have h := focus_focusFrame dom l s
    simp only [_focus]
    cases hp : dom.parentElement l with
    | none => simpa [Completion.state] using h
    | some p =>
      cases hw : dom.parentElement p <;>
        simpa [Completion.state, hw, FocusFrame, Frame] using h

theorem _up_frame (dom : Dom) (s : State) : Frame s (_up dom s).state := by
  unfold _up
  refine frame_trans ?_ (_focus_focusFrame dom _ _).1
  split <;> simp [Frame]

theorem _down_frame (dom : Dom) (s : State) : Frame s (_down dom s).state := by
  unfold _down
  refine frame_trans ?_ (_focus_focusFrame dom _ _).1
  split <;> simp [Frame]

theorem _up_index (dom : Dom) (s : State) :
    (_up dom s).state._indexActiveLink =
      if s._indexActiveLink = 0 then 0 else s._indexActiveLink - 1 := by
  unfold _up
  rw [(_focus_focusFrame dom _ _).2.1]
  split <;> simp_all

theorem _down_index (dom : Dom) (s : State) :
    (_down dom s).state._indexActiveLink =
      if s._indexActiveLink = (s._links.length : Int) - 1 then (s._links.length : Int) - 1
      else s._indexActiveLink + 1 := by
  unfold _down
  rw [(_focus_focusFrame dom _ _).2.1]
  split <;> simp_all

/-! ## Induction over the handlers and the event loop -/

theorem _keydown_ind (kc : KeyCodeTable) (dom : Dom) (P : State → Prop)
    (hup : ∀ s, P s → P (_up dom s).state) (hdown : ∀ s, P s → P (_down dom s).state)
    (hshift : ∀ s, P s → P { s with _isShiftPressed := some true })
    (evt : KeyboardEvent) (s : State) (hs : P s) : P (_keydown kc dom evt s).state.1 := by
  unfold _keydown
  split
  · refine andThen_state_ind (fun p : State × KeyboardEvent => P p.1) _ _ ?_ ?_
    · refine andThen_state_ind (fun p : State × KeyboardEvent => P p.1) _ _ ?_ ?_
      · refine andThen_state_ind (fun p : State × KeyboardEvent => P p.1) _ _ ?_ ?_
        · refine andThen_state_ind (fun p : State × KeyboardEvent => P p.1) _ _ ?_ ?_
          · split
            · rw [withEvent_state]; exact hup s hs
            · exact hs
          · rintro ⟨t, e⟩ ht
            dsimp only
            split_ifs <;> exact ht
        · rintro ⟨t, e⟩ ht
          dsimp only
          split
          · rw [withEvent_state]; exact hdown t ht
          · exact ht
      · rintro ⟨t, e⟩ ht
        dsimp only
        split_ifs
        · rw [withEvent_state]; exact hup t ht
        · rw [withEvent_state]; exact hdown t ht
        · exact ht
    · rintro ⟨t, e⟩ ht
      dsimp only
      split
      · exact hshift t ht
      · exact ht
  · exact hs

theorem _keyup_ind (kc : KeyCodeTable) (P : State → Prop)
    (hshift : ∀ s, P s → P { s with _isShiftPressed := some false })
    (evt : KeyboardEvent) (s : State) (hs : P s) : P (_keyup kc evt s) := by
  unfold _keyup
  split
  · exact hshift s hs
  · exact hs

theorem dispatchKey_ind (kc : KeyCodeTable) (dom : Dom) (P : State → Prop)
    (hup : ∀ s, P s → P (_up dom s).state) (hdown : ∀ s, P s → P (_down dom s).state)
    (hshift : ∀ s b, P s → P { s with _isShiftPressed := some b })
    (hblur : ∀ s, P s → P (_blur s).state)
    (n : EventName) (k : Nat) (s : State) (hs : P s) : P (dispatchKey kc dom n k s).1 := by
  unfold dispatchKey
  generalize listenersOf Target.document n s.listeners = cbs
  generalize ({ keyCode := k, defaultPrevented := false } : KeyboardEvent) = evt
  revert s evt
  induction cbs with
  | nil => intro s hs evt; exact hs
  | cons cb cbs ih =>
    intro s hs evt
    rw [List.foldl_cons]
    cases cb with
    | _onLinkBlur => exact ih _ (hblur s hs) _
    | _onLinkFocus => exact ih _ hs _
    | _onDocumentKeydown =>
      have h := _keydown_ind kc dom P hup hdown (fun s => hshift s true) evt s hs
      exact ih _ h _
    | _onDocumentKeyup =>
      exact ih _ (_keyup_ind kc P (fun s => hshift s false) evt s hs) _

theorem moveFocus_ind (P : State → Prop) (hblur : ∀ s, P s → P (_blur s).state)
    (hact : ∀ s e, P s → P { s with activeElement := e })
    (e : Elem) (s : State) (hs : P s) : P (moveFocus e s) := by
  unfold moveFocus
  split
  · exact hs
  · exact hact _ e (dispatchBlur_ind P hblur _ s hs)

theorem step_ind (kc : KeyCodeTable) (dom : Dom) (P : State → Prop)
    (hup : ∀ s, P s → P (_up dom s).state) (hdown : ∀ s, P s → P (_down dom s).state)
    (hshift : ∀ s b, P s → P { s with _isShiftPressed := some b })
    (hblur : ∀ s, P s → P (_blur s).state)
    (hfocus : ∀ s e, P s → P (moveFocus e s))
    (ev : Event) (s : State) (hs : P s) : P (step kc dom ev s) := by
  cases ev with
  | keydown k => exact dispatchKey_ind kc dom P hup hdown hshift hblur _ k s hs
  | keyup k => exact dispatchKey_ind kc dom P hup hdown hshift hblur _ k s hs
  | blur e => exact dispatchBlur_ind P hblur e s hs
  | focusMove e => exact hfocus s e hs

theorem run_ind (kc : KeyCodeTable) (dom : Dom) (P : State → Prop)
    (hstep : ∀ ev s, P s → P (step kc dom ev s))
    (evs : List Event) (s : State) (hs : P s) : P (run kc dom evs s) := by
  unfold run
  induction evs generalizing s with
  | nil => exact hs
  | cons ev evs ih => exact ih _ (hstep ev s hs)

/-! ## The setup phase of `init()` -/

theorem setupFrame_refl (s : State) : SetupFrame s s := by simp [SetupFrame]

theorem setupFrame_trans {s t u : State} (h1 : SetupFrame s t) (h2 : SetupFrame t u) :
    SetupFrame s u := by
  obtain ⟨a1, a2, a3, a4, a5, a6, a7, a8⟩ := h1
  obtain ⟨b1, b2, b3, b4, b5, b6, b7, b8⟩ := h2
  exact ⟨b1.trans a1, b2.trans a2, b3.trans a3, b4.trans a4, b5.trans a5, b6.trans a6,
    b7.trans a7, b8.trans a8⟩

theorem _fillListeners_setupFrame (s : State) : SetupFrame s (_fillListeners s) := by
  simp [_fillListeners, SetupFrame]

theorem _setListeners_setupFrame (t : Target) (ls : List Listener) (s : State) :
    SetupFrame s (_setListeners t ls s) := by
  induction ls generalizing s with
  | nil => exact setupFrame_refl s
  | cons l ls ih =>
    rw [_setListeners]
    refine setupFrame_trans ?_ (ih _)
    simp [SetupFrame]

theorem _setLinkLoop_setupFrame (link : Option Elem) (ls : List Listener) (s : State) :
    SetupFrame s (_setLinkLoop link ls s).state := by
  induction ls generalizing s with
  | nil => exact setupFrame_refl s
  | cons l ls ih =>
    cases link with
    | none => exact setupFrame_refl s
    | some e =>
      rw [_setLinkLoop]
      refine setupFrame_trans ?_ (ih _)
      simp [SetupFrame]

theorem _initLinksMap_setupFrame (dom : Dom) (rs : List Elem) (acc : List (Option Elem))
    (s : State) : SetupFrame s (_initLinksMap dom rs acc s).state.2 := by
  induction rs generalizing s acc with
  | nil => exact setupFrame_refl s
  | cons r rs ih =>
    rw [_initLinksMap]
    have h := _setLinkLoop_setupFrame (dom.anchor r) s._linkListeners s
    unfold _setLink
    cases hc : _setLinkLoop (dom.anchor r) s._linkListeners s with
    | thrown s1 => rw [hc] at h; exact h
    | normal s1 => rw [hc] at h; exact setupFrame_trans h (ih _ _)

theorem _initLinks_setupFrame (dom : Dom) (s : State) :
    SetupFrame s (_initLinks dom s).state := by
  unfold _initLinks
  have h := _initLinksMap_setupFrame dom s._results [] s
  cases hc : _initLinksMap dom s._results [] s with
  | thrown p => rw [hc] at h; exact h
  | normal p =>
    rw [hc] at h
    obtain ⟨a1, a2, a3, a4, a5, a6, a7, a8⟩ := h
    exact ⟨a1, a2, a3, a4, a5, a6, a7, a8⟩

theorem init_index (dom : Dom) (s : State) :
    (init dom s).state._indexActiveLink = s._indexActiveLink := by
  unfold init
  refine andThen_state_ind (fun t : State => t._indexActiveLink = s._indexActiveLink) _ _ ?_ ?_
  · exact (setupFrame_trans (_fillListeners_setupFrame s) (_initLinks_setupFrame dom _)).2.2.1
  · intro t ht
    rw [(_focus_focusFrame dom _ _).2.1, (_setListeners_setupFrame _ _ t).2.2.1, ht]

/-! ## Index bounds -/

theorem _up_bounds (dom : Dom) (L : List (Option Elem)) (s : State)
    (h : s._links = L ∧ IndexInBounds s) :
    (_up dom s).state._links = L ∧ IndexInBounds (_up dom s).state := by
  obtain ⟨hL, h0, h1⟩ := h
  have hf := (_up_frame dom s).2.2.2.2.1
  refine ⟨hf.trans hL, ?_⟩
  unfold IndexInBounds
  rw [_up_index, hf]
  split <;> omega

theorem _down_bounds (dom : Dom) (L : List (Option Elem)) (s : State)
    (h : s._links = L ∧ IndexInBounds s) :
    (_down dom s).state._links = L ∧ IndexInBounds (_down dom s).state := by
  obtain ⟨hL, h0, h1⟩ := h
  have hf := (_down_frame dom s).2.2.2.2.1
  refine ⟨hf.trans hL, ?_⟩
  unfold IndexInBounds
  rw [_down_index, hf]
  split <;> omega

theorem step_bounds (kc : KeyCodeTable) (dom : Dom) (L : List (Option Elem)) (ev : Event)
    (s : State) (h : s._links = L ∧ IndexInBounds s) :
    (step kc dom ev s)._links = L ∧ IndexInBounds (step kc dom ev s) := by
  have hb : ∀ t, (t._links = L ∧ IndexInBounds t) →
      ((_blur t).state._links = L ∧ IndexInBounds (_blur t).state) := by
    intro t ht
    have hf := blur_focusFrame t
    exact ⟨hf.1.2.2.2.2.1.trans ht.1,
      by unfold IndexInBounds; rw [hf.2.1, hf.1.2.2.2.2.1]; exact ht.2⟩
  exact step_ind kc dom (fun t => t._links = L ∧ IndexInBounds t) (_up_bounds dom L)
    (_down_bounds dom L) (fun _ _ h => h) hb
    (fun t e ht => moveFocus_ind (fun t => t._links = L ∧ IndexInBounds t) hb
      (fun _ _ h => h) e t ht) ev s h

/-- C1. After one `init()` on a fresh controller that yields at least one link, every
sequence of events (key down, key up, blur, focus moving anywhere, the search input
included) leaves the link list as it is and the active index within `[0, linkCount - 1]`. -/
theorem index_bounds_invariant (kc : KeyCodeTable) (dom : Dom) (results : List Elem)
    (searchForm activeElement : Elem) (activeClass linkClass : List Elem) (evs : List Event)
    (hne : (init dom (constructor results searchForm activeElement activeClass
      linkClass)).state._links ≠ []) :
    (run kc dom evs (init dom (constructor results searchForm activeElement activeClass
        linkClass)).state)._links =
      (init dom (constructor results searchForm activeElement activeClass
        linkClass)).state._links ∧
    0 ≤ (run kc dom evs (init dom (constructor results searchForm activeElement activeClass
        linkClass)).state)._indexActiveLink ∧
    (run kc dom evs (init dom (constructor results searchForm activeElement activeClass
        linkClass)).state)._indexActiveLink ≤
      ((init dom (constructor results searchForm activeElement activeClass
        linkClass)).state._links.length : Int) - 1 := by
  generalize hs0 : (init dom (constructor results searchForm activeElement activeClass
    linkClass)).state = s0 at hne ⊢
  have hidx : s0._indexActiveLink = 0 := by rw [← hs0, init_index]; rfl
  have hlen : 0 < s0._links.length := List.length_pos.mpr hne
  have h0 : s0._links = s0._links ∧ IndexInBounds s0 :=
    ⟨rfl, by unfold IndexInBounds; omega⟩
  have h := run_ind kc dom (fun t => t._links = s0._links ∧ IndexInBounds t)
    (fun ev s => step_bounds kc dom s0._links ev s) evs s0 h0
  obtain ⟨h1, h2, h3⟩ := h
  rw [h1] at h3
  exact ⟨h1, h2, h3⟩

/-- C1 on the three-link page: down three times, shift-tab, a click into the search
input, a key there, a click on the first link, up twice. -/
theorem index_bounds_invariant_witness :
    (init page3 ctl3).state._links ≠ [] ∧
    ((run domKeyCodes page3
        [.keydown 40, .keydown 40, .keydown 40, .keydown 16, .keydown 9, .keyup 16,
          .focusMove 1, .keydown 40, .focusMove 12, .keydown 38, .keydown 38]
        (init page3 ctl3).state)._links = (init page3 ctl3).state._links ∧
      0 ≤ (run domKeyCodes page3
        [.keydown 40, .keydown 40, .keydown 40, .keydown 16, .keydown 9, .keyup 16,
          .focusMove 1, .keydown 40, .focusMove 12, .keydown 38, .keydown 38]
        (init page3 ctl3).state)._indexActiveLink ∧
      (run domKeyCodes page3
        [.keydown 40, .keydown 40, .keydown 40, .keydown 16, .keydown 9, .keyup 16,
          .focusMove 1, .keydown 40, .focusMove 12, .keydown 38, .keydown 38]
        (init page3 ctl3).state)._indexActiveLink ≤
        ((init page3 ctl3).state._links.length : Int) - 1) :=
  ⟨by decide, index_bounds_invariant domKeyCodes page3 [10, 20, 30] 1 0 [] [] _ (by decide)⟩

/-! ## The single active element -/

theorem mem_classListAdd (e w : Elem) (cls : List Elem) :
    e ∈ classListAdd w cls ↔ e ∈ cls ∨ e = w := by
  unfold classListAdd
  split
  · constructor
    · exact Or.inl
    · rintro (h | h)
      · exact h
      · subst h; assumption
  · simp

theorem mem_classListRemove (e w : Elem) (cls : List Elem) :
    e ∈ classListRemove w cls ↔ e ∈ cls ∧ e ≠ w := by
  simp [classListRemove]

theorem arrayGet_mem (array : List (Option Elem)) (i : Int) (l : Elem)
    (h : arrayGet array i = some l) : some l ∈ array := by
  unfold arrayGet at h
  split at h
  · cases hg : array[i.toNat]? with
    | none => rw [hg] at h; cases h
    | some o =>
      rw [hg] at h
      have ho : o = some l := h
      rw [← ho]
      exact List.getElem?_mem hg
  · cases h

theorem blur_activeInv (dom : Dom) (A0 : List Elem) (s : State) (h : ActiveInv dom A0 s) :
    ActiveInv dom A0 (_blur s).state ∧ (_blur s).state._activeElement = none := by
  obtain ⟨h1, h2, h3⟩ := h
  cases ha : s._activeElement with
  | none =>
    rw [_blur_none s ha]
    refine ⟨⟨h1, ?_, h3⟩, ha⟩
    intro w hw
    rw [state_thrown] at hw
    change s._activeElement = some w at hw
    rw [ha] at hw
    cases hw
  | some w =>
    rw [_blur_some s w ha]
    refine ⟨⟨h1, ?_, ?_⟩, rfl⟩
    · intro w hw
      cases hw
    · intro e he
      rw [state_normal] at he
      have he' := (mem_classListRemove e w s.activeClass).mp he
      rcases h3 e he'.1 with h | h
      · exact Or.inl h
      · rw [ha] at h
        exact absurd (Option.some.inj h).symm he'.2

theorem moveFocus_activeInv (dom : Dom) (A0 : List Elem) (e : Elem) (s : State)
    (h : ActiveInv dom A0 s) :
    ActiveInv dom A0 (moveFocus e s) ∧ (moveFocus e s).activeElement = e ∧
      (s.activeElement ≠ e → (moveFocus e s)._activeElement = none) ∧
      (s.activeElement = e → moveFocus e s = s) := by
  unfold moveFocus
  split
  · rename_i heq
    exact ⟨h, heq, fun hne => absurd heq hne, fun _ => rfl⟩
  · rename_i hne
    have key : ActiveInv dom A0 (dispatchBlur s.activeElement s) ∧
        (dispatchBlur s.activeElement s)._activeElement = none := by
      rw [dispatchBlur_eq]
      split
      · exact blur_activeInv dom A0 s h
      · rename_i hno
        refine ⟨h, ?_⟩
        cases ha : s._activeElement with
        | none => rfl
        | some w => exact absurd (h.1.1 _ (h.2.1 w ha).1) hno
    obtain ⟨⟨k1, k2, k3⟩, k4⟩ := key
    refine ⟨⟨k1, ?_, k3⟩, rfl, fun _ => k4, fun heq => absurd heq hne⟩
    intro w hw
    change (dispatchBlur s.activeElement s)._activeElement = some w at hw
    rw [k4] at hw
    cases hw

theorem _focus_activeInv (dom : Dom) (A0 : List Elem) (link : Option Elem) (s : State)
    (hl : ∀ l, link = some l → some l ∈ s._links) (h : ActiveInv dom A0 s) :
    ActiveInv dom A0 (_focus dom link s).state := by
  cases link with
  | none => exact h
  | some l =>
    obtain ⟨⟨k1, k2, k3⟩, kact, -, -⟩ := moveFocus_activeInv dom A0 l s h
    have hfe := focus_of_focusable dom l s (h.1.2 l (hl l rfl))
    have hmem : some l ∈ (moveFocus l s)._links := by
      rw [(moveFocus_focusFrame l s).1.2.2.2.2.1]
      exact hl l rfl
    cases hp : dom.parentElement l with
    | none => rw [_focus_noParent dom l s hp, hfe]; exact ⟨k1, k2, k3⟩
    | some p =>
      have hwr : wrapper dom l = dom.parentElement p := by simp [wrapper, hp]
      cases hw : dom.parentElement p with
      | none =>
        rw [_focus_noWrapper dom l p s hp hw, hfe]
        refine ⟨k1, ?_, ?_⟩
        · intro w hw'
          cases hw'
        · intro e he
          rcases k3 e he with h' | h'
          · exact Or.inl h'
          · have := (k2 e h').2
            rw [kact, hwr, hw] at this
            cases this
      | some w =>
        rw [_focus_ok dom l p w s hp hw, hfe]
        refine ⟨k1, ?_, ?_⟩
        · intro w' hw'
          have hww : w = w' := Option.some.inj hw'
          subst hww
          refine ⟨?_, ?_⟩
          · change some (moveFocus l s).activeElement ∈ (moveFocus l s)._links
            rw [kact]
            exact hmem
          · change wrapper dom (moveFocus l s).activeElement = some w
            rw [kact, hwr, hw]
        · intro e he
          rw [state_normal] at he
          have he' := (mem_classListAdd e w (moveFocus l s).activeClass).mp he
          rcases he' with he' | he'
          · rcases k3 e he' with h' | h'
            · exact Or.inl h'
            · have := (k2 e h').2
              rw [kact, hwr, hw] at this
              exact Or.inr this
          · exact Or.inr (by rw [he']; rfl)

theorem _up_activeInv (dom : Dom) (A0 : List Elem) (s : State) (h : ActiveInv dom A0 s) :
    ActiveInv dom A0 (_up dom s).state := by
  unfold _up
  refine _focus_activeInv dom A0 _ _ (fun l hl => arrayGet_mem _ _ l hl) ?_
  split <;> exact h

theorem _down_activeInv (dom : Dom) (A0 : List Elem) (s : State) (h : ActiveInv dom A0 s) :
    ActiveInv dom A0 (_down dom s).state := by
  unfold _down
  refine _focus_activeInv dom A0 _ _ (fun l hl => arrayGet_mem _ _ l hl) ?_
  split <;> exact h

theorem step_activeInv (kc : KeyCodeTable) (dom : Dom) (A0 : List Elem) (ev : Event)
    (s : State) (h : ActiveInv dom A0 s) : ActiveInv dom A0 (step kc dom ev s) :=
  step_ind kc dom (ActiveInv dom A0) (_up_activeInv dom A0) (_down_activeInv dom A0)
    (fun _ _ h => h) (fun t ht => (blur_activeInv dom A0 t ht).1)
    (fun t e ht => (moveFocus_activeInv dom A0 e t ht).1) ev s h

theorem run_activeInv (kc : KeyCodeTable) (dom : Dom) (A0 : List Elem) (evs : List Event)
    (s : State) (h : ActiveInv dom A0 s) : ActiveInv dom A0 (run kc dom evs s) :=
  run_ind kc dom (ActiveInv dom A0) (fun ev s => step_activeInv kc dom A0 ev s) evs s h

/-- Under the invariant, two elements that carry `active` and did not carry it initially
are the same element. -/
theorem activeInv_unique (dom : Dom) (A0 : List Elem) (s : State) (h : ActiveInv dom A0 s)
    (a b : Elem) (ha : a ∈ s.activeClass) (hb : b ∈ s.activeClass) (ha0 : a ∉ A0)
    (hb0 : b ∉ A0) : a = b := by
  have h1 := (h.2.2 a ha).resolve_left ha0
  have h2 := (h.2.2 b hb).resolve_left hb0
  rw [h1] at h2
  exact Option.some.inj h2

/-! ## What `init()` registers -/

theorem mem_addEventListener (x : Target × Listener) (t : Target) (l : Listener)
    (ls : List (Target × Listener)) :
    x ∈ addEventListener t l ls ↔ x ∈ ls ∨ x = (t, l) := by
  unfold addEventListener
  split
  · constructor
    · exact Or.inl
    · rintro (h | h)
      · exact h
      · subst h; assumption
  · simp

theorem mem_listenersOf (cb : Callback) (t : Target) (n : EventName)
    (ls : List (Target × Listener)) :
    cb ∈ listenersOf t n ls ↔ (t, ({ eventName := n, callback := cb } : Listener)) ∈ ls := by
  unfold listenersOf
  simp only [List.mem_map, List.mem_filter, decide_eq_true_eq]
  constructor
  · rintro ⟨⟨t', l⟩, ⟨hmem, ht, hn⟩, hcb⟩
    simp only at ht hn hcb
    subst ht hn hcb
    exact hmem
  · intro h
    exact ⟨_, ⟨h, rfl, rfl⟩, rfl⟩

theorem grows_refl (s : State) : Grows s s := ⟨rfl, rfl, rfl, fun _ h => h⟩

theorem grows_trans {s t u : State} (h1 : Grows s t) (h2 : Grows t u) : Grows s u :=
  ⟨h2.1.trans h1.1, h2.2.1.trans h1.2.1, h2.2.2.1.trans h1.2.2.1,
    fun x hx => h2.2.2.2 x (h1.2.2.2 x hx)⟩

theorem _setLinkLoop_some (e : Elem) (ls : List Listener) (s : State) :
    ∃ t, _setLinkLoop (some e) ls s = .normal t ∧ Grows s t ∧
      ∀ l, l ∈ ls → (Target.element e, l) ∈ t.listeners := by
  induction ls generalizing s with
  | nil => exact ⟨s, rfl, grows_refl s, fun _ h => by cases h⟩
  | cons l ls ih =>
    rw [_setLinkLoop]
    obtain ⟨t, ht, hg, hall⟩ := ih
      { s with listeners := addEventListener (.element e) l s.listeners,
               linkClass := classListAdd e s.linkClass }
    refine ⟨t, ht, ⟨hg.1, hg.2.1, hg.2.2.1, ?_⟩, ?_⟩
    · intro x hx
      exact hg.2.2.2 x ((mem_addEventListener x _ l s.listeners).mpr (Or.inl hx))
    · intro l' hl'
      rcases List.mem_cons.mp hl' with h | h
      · subst h
        exact hg.2.2.2 _ ((mem_addEventListener _ _ _ s.listeners).mpr (Or.inr rfl))
      · exact hall l' h

theorem _setLinkLoop_none (ls : List Listener) (s : State) :
    _setLinkLoop none ls s = if ls = [] then .normal s else .thrown s := by
  cases ls <;> simp [_setLinkLoop]

theorem _setLink_grows (link : Option Elem) (s : State) : Grows s (_setLink link s).state := by
  unfold _setLink
  cases link with
  | none => rw [_setLinkLoop_none]; split <;> exact grows_refl s
  | some e =>
    obtain ⟨t, ht, hg, -⟩ := _setLinkLoop_some e s._linkListeners s
    rw [ht]
    exact hg

theorem _initLinksMap_spec (dom : Dom) (rs : List Elem) (acc : List (Option Elem))
    (s : State) :
    Grows s (_initLinksMap dom rs acc s).state.2 ∧
    (∀ mapped t, _initLinksMap dom rs acc s = .normal (mapped, t) →
      mapped = acc ++ rs.map dom.anchor ∧
      ∀ e, some e ∈ rs.map dom.anchor → ∀ l, l ∈ s._linkListeners →
        (Target.element e, l) ∈ t.listeners) := by
  induction rs generalizing acc s with
  | nil =>
    refine ⟨grows_refl s, ?_⟩
    intro mapped t h
    simp only [_initLinksMap, Completion.normal.injEq, Prod.mk.injEq] at h
    obtain ⟨h1, h2⟩ := h
    subst h1 h2
    simp
  | cons r rs ih =>
    rw [_initLinksMap]
    have hg := _setLink_grows (dom.anchor r) s
    cases hc : _setLink (dom.anchor r) s with
    | thrown s1 =>
      rw [hc] at hg
      refine ⟨hg, ?_⟩
      intro mapped t h
      cases h
    | normal s1 =>
      rw [hc] at hg
      obtain ⟨ih1, ih2⟩ := ih (acc ++ [dom.anchor r]) s1
      refine ⟨grows_trans hg ih1, ?_⟩
      intro mapped t h
      obtain ⟨hm, hall⟩ := ih2 mapped t h
      refine ⟨by simp [hm], ?_⟩
      intro e he l hl
      have ht : t = (_initLinksMap dom rs (acc ++ [dom.anchor r]) s1).state.2 := by
        simp only at h
        rw [h]
        rfl
      rcases List.mem_cons.mp he with h' | h'
      · unfold _setLink at hc
        rw [← h'] at hc
        obtain ⟨t', ht', -, hall'⟩ := _setLinkLoop_some e s._linkListeners s
        rw [ht'] at hc
        cases hc
        rw [ht]
        exact ih1.2.2.2 _ (hall' l hl)
      · refine hall e h' l ?_
        rw [state_normal] at hg
        rw [hg.1]
        exact hl

/-! ## The link list is the list of first occurrences -/

theorem arrayIndexOf_append_cons {α : Type} [DecidableEq α] (pre rest : List α) (x : α) :
    arrayIndexOf (pre ++ x :: rest) x = (pre.length : Int) ↔ x ∉ pre := by
  have hmem : x ∈ pre ++ x :: rest := by simp
  unfold arrayIndexOf
  rw [if_pos hmem]
  constructor
  · intro h hx
    have h1 : List.indexOf x (pre ++ x :: rest) = List.indexOf x pre :=
      List.indexOf_append_of_mem hx
    have h2 : List.indexOf x pre < pre.length := List.indexOf_lt_length.mpr hx
    rw [h1] at h
    omega
  · intro hx
    rw [List.indexOf_append_of_not_mem hx, List.indexOf_cons_self]
    simp

theorem keepFirst_congr {α : Type} [DecidableEq α] (s1 s2 xs : List α)
    (h : ∀ a, a ∈ s1 ↔ a ∈ s2) : keepFirst s1 xs = keepFirst s2 xs := by
  induction xs generalizing s1 s2 with
  | nil => rfl
  | cons x xs ih =>
    rw [keepFirst, keepFirst]
    have ih2 := ih (s1 ++ [x]) (s2 ++ [x]) (fun a => by simp [h a])
    by_cases hx : x ∈ s1
    · rw [if_pos hx, if_pos ((h x).mp hx)]
      exact ih s1 s2 h
    · rw [if_neg hx, if_neg (fun hc => hx ((h x).mpr hc)), ih2]

theorem arrayFilterFrom_eq_keepFirst {α : Type} [DecidableEq α] (array : List α)
    (pre xs : List α) (h : array = pre ++ xs) :
    arrayFilterFrom (fun x i => decide (arrayIndexOf array x = (i : Int))) xs pre.length =
      keepFirst pre xs := by
  induction xs generalizing pre with
  | nil => rfl
  | cons x xs ih =>
    have h' : array = (pre ++ [x]) ++ xs := by simp [h]
    have ih' := ih (pre ++ [x]) h'
    rw [List.length_append, List.length_singleton] at ih'
    rw [arrayFilterFrom, keepFirst, ih']
    have hiff := arrayIndexOf_append_cons pre xs x
    rw [← h] at hiff
    by_cases hx : x ∈ pre
    · have : ¬ arrayIndexOf array x = (pre.length : Int) := fun hc => hiff.mp hc hx
      simp only [this, decide_False, Bool.false_eq_true, if_false, hx, if_true]
      exact keepFirst_congr _ _ xs (fun a => by
        constructor
        · intro ha
          rcases List.mem_append.mp ha with h1 | h1
          · exact h1
          · rw [List.mem_singleton.mp h1]; exact hx
        · exact List.mem_append_left _)
    · have : arrayIndexOf array x = (pre.length : Int) := hiff.mpr hx
      simp [hx, this]

/-- The `filter` of `_initLinks` keeps exactly the first occurrences. -/
theorem arrayFilter_indexOf_eq {α : Type} [DecidableEq α] (array : List α) :
    arrayFilter (fun link index array => decide (arrayIndexOf array link = (index : Int)))
      array = firstOccurrences array := by
  unfold arrayFilter firstOccurrences
  exact arrayFilterFrom_eq_keepFirst array [] array rfl

theorem mem_keepFirst {α : Type} [DecidableEq α] (seen xs : List α) (x : α) :
    x ∈ keepFirst seen xs ↔ x ∈ xs ∧ x ∉ seen := by
  induction xs generalizing seen with
  | nil => simp [keepFirst]
  | cons y ys ih =>
    rw [keepFirst]
    split
    · rename_i hy
      rw [ih]
      constructor
      · rintro ⟨h1, h2⟩; exact ⟨List.mem_cons_of_mem _ h1, h2⟩
      · rintro ⟨h1, h2⟩
        rcases List.mem_cons.mp h1 with h | h
        · subst h; exact absurd hy h2
        · exact ⟨h, h2⟩
    · rename_i hy
      rw [List.mem_cons, ih]
      constructor
      · rintro (h | ⟨h1, h2⟩)
        · subst h; exact ⟨List.mem_cons_self _ _, hy⟩
        · exact ⟨List.mem_cons_of_mem _ h1, fun hc => h2 (List.mem_append_left _ hc)⟩
      · rintro ⟨h1, h2⟩
        by_cases hxy : x = y
        · exact Or.inl hxy
        · right
          rcases List.mem_cons.mp h1 with h | h
          · exact absurd h hxy
          · refine ⟨h, fun hc => ?_⟩
            rcases List.mem_append.mp hc with h' | h'
            · exact h2 h'
            · exact hxy (List.mem_singleton.mp h')

theorem keepFirst_nodup {α : Type} [DecidableEq α] (seen xs : List α) :
    (keepFirst seen xs).Nodup := by
  induction xs generalizing seen with
  | nil => exact List.nodup_nil
  | cons y ys ih =>
    rw [keepFirst]
    split
    · exact ih seen
    · refine List.nodup_cons.mpr ⟨?_, ih _⟩
      intro hc
      exact ((mem_keepFirst _ _ _).mp hc).2 (by simp)

theorem keepFirst_sublist {α : Type} [DecidableEq α] (seen xs : List α) :
    (keepFirst seen xs).Sublist xs := by
  induction xs generalizing seen with
  | nil => exact List.Sublist.refl _
  | cons y ys ih =>
    rw [keepFirst]
    split
    · exact (ih seen).cons y
    · exact (ih _).cons₂ y

theorem mem_firstOccurrences {α : Type} [DecidableEq α] (xs : List α) (x : α) :
    x ∈ firstOccurrences xs ↔ x ∈ xs := by
  simp [firstOccurrences, mem_keepFirst]

theorem _initLinks_links (dom : Dom) (s t : State) (h : _initLinks dom s = .normal t) :
    t._links = firstOccurrences (s._results.map dom.anchor) := by
  unfold _initLinks at h
  obtain ⟨-, hspec⟩ := _initLinksMap_spec dom s._results [] s
  cases hc : _initLinksMap dom s._results [] s with
  | thrown p => rw [hc] at h; cases h
  | normal p =>
    obtain ⟨mapped, u⟩ := p
    rw [hc] at h
    obtain ⟨hm, -⟩ := hspec mapped u hc
    simp only [Completion.normal.injEq] at h
    rw [← h]
    simp only [List.nil_append] at hm
    rw [← hm]
    exact arrayFilter_indexOf_eq mapped

/-! ## The invariant holds after `init()` -/

theorem _initLinks_spec (dom : Dom) (s : State) :
    Grows s { (_initLinks dom s).state with _links := s._links } ∧
    ∀ t, _initLinks dom s = .normal t →
      ∀ e, some e ∈ t._links → ∀ l, l ∈ s._linkListeners →
        (Target.element e, l) ∈ t.listeners := by
  obtain ⟨hg, hspec⟩ := _initLinksMap_spec dom s._results [] s
  unfold _initLinks
  cases hc : _initLinksMap dom s._results [] s with
  | thrown p =>
    obtain ⟨mapped, u⟩ := p
    rw [hc] at hg
    refine ⟨⟨hg.1, hg.2.1, rfl, hg.2.2.2⟩, ?_⟩
    intro t ht
    cases ht
  | normal p =>
    obtain ⟨mapped, u⟩ := p
    rw [hc] at hg
    refine ⟨⟨hg.1, hg.2.1, rfl, hg.2.2.2⟩, ?_⟩
    intro t ht e he l hl
    obtain ⟨hm, hall⟩ := hspec mapped u hc
    simp only [Completion.normal.injEq] at ht
    subst ht
    simp only [List.nil_append] at hm
    refine hall e ?_ l hl
    rw [← hm]
    have he' : some e ∈ firstOccurrences mapped := by
      rw [← arrayFilter_indexOf_eq]
      exact he
    exact (mem_firstOccurrences mapped (some e)).mp he'

theorem _setListeners_grows (t : Target) (ls : List Listener) (s : State) :
    Grows s (_setListeners t ls s) ∧
      ∀ l, l ∈ ls → (t, l) ∈ (_setListeners t ls s).listeners := by
  induction ls generalizing s with
  | nil => exact ⟨grows_refl s, fun _ h => by cases h⟩
  | cons l ls ih =>
    rw [_setListeners]
    obtain ⟨hg, hall⟩ := ih { s with listeners := addEventListener t l s.listeners }
    refine ⟨⟨hg.1, hg.2.1, hg.2.2.1, ?_⟩, ?_⟩
    · intro x hx
      exact hg.2.2.2 x ((mem_addEventListener x t l s.listeners).mpr (Or.inl hx))
    · intro l' hl'
      rcases List.mem_cons.mp hl' with h | h
      · subst h
        exact hg.2.2.2 _ ((mem_addEventListener _ t _ s.listeners).mpr (Or.inr rfl))
      · exact hall l' h

theorem linksListen_of_frame {s t : State} (hf : Frame s t) (h : LinksListen s) :
    LinksListen t := by
  intro l hl
  rw [hf.2.2.2.2.1] at hl
  rw [hf.2.2.2.2.2.2]
  exact h l hl

/-- After `init()` on a fresh controller every link of the list carries the blur
listener. -/
theorem init_linksListen (dom : Dom) (results : List Elem) (searchForm activeElement : Elem)
    (A0 linkClass : List Elem) :
    LinksListen (init dom (constructor results searchForm activeElement A0
      linkClass)).state := by
  generalize hc : constructor results searchForm activeElement A0 linkClass = c
  have hc3 : (_fillListeners c)._links = [] := by rw [← hc]; rfl
  have hfl : ({ eventName := .blur, callback := ._onLinkBlur } : Listener) ∈
      (_fillListeners c)._linkListeners := by
    rw [← hc]; simp [_fillListeners, constructor, _createListener]
  obtain ⟨-, hreg⟩ := _initLinks_spec dom (_fillListeners c)
  unfold init
  cases hi : _initLinks dom (_fillListeners c) with
  | thrown t =>
    simp only [Completion.andThen, state_thrown]
    have hl : t._links = (_fillListeners c)._links := by
      unfold _initLinks at hi
      cases hm : _initLinksMap dom (_fillListeners c)._results [] (_fillListeners c) with
      | thrown p =>
        have := (_initLinksMap_spec dom (_fillListeners c)._results [] (_fillListeners c)).1
        rw [hm] at this hi
        simp only [Completion.thrown.injEq] at hi
        rw [← hi]
        exact this.2.2.1
      | normal p => rw [hm] at hi; cases hi
    intro l hl'
    rw [hl, hc3] at hl'
    cases hl'
  | normal t =>
    simp only [Completion.andThen]
    obtain ⟨hg2, -⟩ := _setListeners_grows .document t._documentListeners t
    refine linksListen_of_frame (_focus_focusFrame dom _ _).1 ?_
    intro l hl
    rw [hg2.2.2.1] at hl
    exact (mem_listenersOf _ _ _ _).mpr (hg2.2.2.2 _ (hreg t hi l hl _ hfl))

theorem init_activeInv (dom : Dom) (results : List Elem) (searchForm activeElement : Elem)
    (A0 linkClass : List Elem)
    (hfoc : ∀ r l, r ∈ results → dom.anchor r = some l → dom.focusable l = true) :
    ActiveInv dom A0 (init dom (constructor results searchForm activeElement A0
      linkClass)).state := by
  generalize hc : constructor results searchForm activeElement A0 linkClass = c
  have hc1 : c._activeElement = none := by rw [← hc]; rfl
  have hc2 : c.activeClass = A0 := by rw [← hc]; rfl
  have hc3 : c._links = [] := by rw [← hc]; rfl
  have hfl : ({ eventName := .blur, callback := ._onLinkBlur } : Listener) ∈
      (_fillListeners c)._linkListeners := by
    rw [← hc]; simp [_fillListeners, constructor, _createListener]
  have hfl3 : (_fillListeners c)._links = [] := hc3
  have hres : (_fillListeners c)._results = results := by rw [← hc]; rfl
  have hsf := setupFrame_trans (_fillListeners_setupFrame c)
    (_initLinks_setupFrame dom (_fillListeners c))
  obtain ⟨hg, hreg⟩ := _initLinks_spec dom (_fillListeners c)
  unfold init
  cases hi : _initLinks dom (_fillListeners c) with
  | thrown t =>
    rw [hi] at hsf hg
    rw [state_thrown] at hsf
    simp only [Completion.andThen, state_thrown]
    have hl : t._links = (_fillListeners c)._links := by
      unfold _initLinks at hi
      cases hm : _initLinksMap dom (_fillListeners c)._results [] (_fillListeners c) with
      | thrown p =>
        have := (_initLinksMap_spec dom (_fillListeners c)._results [] (_fillListeners c)).1
        rw [hm] at this hi
        simp only [Completion.thrown.injEq] at hi
        rw [← hi]
        exact this.2.2.1
      | normal p => rw [hm] at hi; cases hi
    refine ⟨⟨?_, ?_⟩, ?_, ?_⟩
    · intro l hl'
      change some l ∈ t._links at hl'
      rw [hl, hfl3] at hl'
      cases hl'
    · intro l hl'
      change some l ∈ t._links at hl'
      rw [hl, hfl3] at hl'
      cases hl'
    · intro w hw
      change t._activeElement = some w at hw
      rw [hsf.2.2.2.2.2.2.1, hc1] at hw
      cases hw
    · intro e he
      change e ∈ t.activeClass at he
      rw [hsf.2.2.2.2.2.1, hc2] at he
      exact Or.inl he
  | normal t =>
    rw [hi] at hsf
    rw [state_normal] at hsf
    simp only [Completion.andThen]
    obtain ⟨hg2, -⟩ := _setListeners_grows .document t._documentListeners t
    have hsfd := setupFrame_trans hsf
      (_setListeners_setupFrame .document t._documentListeners t)
    refine _focus_activeInv dom A0 _ _
      (fun l hl => by rw [hg2.2.2.1]; exact arrayGet_mem _ _ l hl) ⟨⟨?_, ?_⟩, ?_, ?_⟩
    · intro l hl
      rw [hg2.2.2.1] at hl
      exact (mem_listenersOf _ _ _ _).mpr (hg2.2.2.2 _ (hreg t hi l hl _ hfl))
    · intro l hl
      rw [hg2.2.2.1, _initLinks_links dom _ t hi, mem_firstOccurrences, hres] at hl
      obtain ⟨r, hr, hrl⟩ := List.mem_map.mp hl
      exact hfoc r l hr hrl
    · intro w hw
      rw [hsfd.2.2.2.2.2.2.1, hc1] at hw
      cases hw
    · intro e he
      rw [hsfd.2.2.2.2.2.1, hc2] at he
      exact Or.inl he

/-- C2, as the code has it. On a page whose anchors can all take focus, in every state
reached after `init()` on a fresh controller by key events, blur events and focus moves (a
focus move fires the blur of the element losing focus first), at most one element carries
`active` among those that did not carry it when the controller was built. -/
theorem single_active_element (kc : KeyCodeTable) (dom : Dom) (results : List Elem)
    (searchForm activeElement : Elem) (A0 linkClass : List Elem) (evs : List Event)
    (a b : Elem)
    (hfoc : ∀ r l, r ∈ results → dom.anchor r = some l → dom.focusable l = true)
    (ha : a ∈ (run kc dom evs (init dom (constructor results searchForm activeElement A0
      linkClass)).state).activeClass)
    (hb : b ∈ (run kc dom evs (init dom (constructor results searchForm activeElement A0
      linkClass)).state).activeClass)
    (ha0 : a ∉ A0) (hb0 : b ∉ A0) : a = b :=
  activeInv_unique dom A0 _
    (run_activeInv kc dom A0 evs _
      (init_activeInv dom results searchForm activeElement A0 linkClass hfoc)) a b ha hb ha0
    hb0

/-- C2 as stated fails in two ways. On the three-link page with entry 20 already marked
`active` by the page, entries 10 and 20 both carry `active` right after `init()`. On the
three-link page whose link 22 is an anchor without `href`, one Down keydown after `init()`
leaves link 12 focused (no blur is fired) and entries 10 and 20 both `active`. -/
theorem single_active_element_counterexample :
    ((init page3 (constructor [10, 20, 30] 1 0 [20] [])).isNormal = true ∧
      10 ∈ (init page3 (constructor [10, 20, 30] 1 0 [20] [])).state.activeClass ∧
      20 ∈ (init page3 (constructor [10, 20, 30] 1 0 [20] [])).state.activeClass) ∧
    ((init (page3With [22]) ctl3).isNormal = true ∧
      (run domKeyCodes (page3With [22]) [.keydown 40]
        (init (page3With [22]) ctl3).state).activeElement = 12 ∧
      10 ∈ (run domKeyCodes (page3With [22]) [.keydown 40]
        (init (page3With [22]) ctl3).state).activeClass ∧
      20 ∈ (run domKeyCodes (page3With [22]) [.keydown 40]
        (init (page3With [22]) ctl3).state).activeClass) := by
  decide

/-- C2 (amended) on the three-link page after two key presses: entry 30 is the one active
element. -/
theorem single_active_element_witness :
    ((∀ r l, r ∈ [10, 20, 30] → page3.anchor r = some l → page3.focusable l = true) ∧
      30 ∈ (run domKeyCodes page3 [.keydown 40, .keydown 9]
        (init page3 (constructor [10, 20, 30] 1 0 [] [])).state).activeClass ∧
      30 ∉ ([] : List Elem)) ∧ (30 : Elem) = 30 :=
  ⟨⟨fun _ _ _ _ => rfl, by decide, by decide⟩,
    single_active_element domKeyCodes page3 [10, 20, 30] 1 0 [] []
      [.keydown 40, .keydown 9] 30 30 (fun _ _ _ _ => rfl) (by decide) (by decide)
      (by decide) (by decide)⟩

/-! ## The key table of `_keydown` -/

theorem _keydown_gated (kc : KeyCodeTable) (dom : Dom) (evt : KeyboardEvent) (s : State)
    (hg : s.activeElement = s._searchForm) : _keydown kc dom evt s = .normal (s, evt) := by
  simp [_keydown, _isSearchFormFocused, hg]

theorem _keydown_up (kc : KeyCodeTable) (dom : Dom) (evt : KeyboardEvent) (s : State)
    (hk : kc.Distinct) (hg : s.activeElement ≠ s._searchForm) (he : evt.keyCode = kc.UP) :
    _keydown kc dom evt s = (_up dom s).withEvent evt.preventDefault := by
  obtain ⟨h1, h2, h3, h4, h5, h6, h7, h8, h9, h10⟩ := hk
  cases hu : _up dom s <;>
    simp [_keydown, _isSearchFormFocused, hg, he, hu, Completion.andThen,
      Completion.withEvent, KeyboardEvent.preventDefault, h1, h2, h3, h4]

theorem _keydown_down (kc : KeyCodeTable) (dom : Dom) (evt : KeyboardEvent) (s : State)
    (hk : kc.Distinct) (hg : s.activeElement ≠ s._searchForm) (he : evt.keyCode = kc.DOWN) :
    _keydown kc dom evt s = (_down dom s).withEvent evt.preventDefault := by
  obtain ⟨h1, h2, h3, h4, h5, h6, h7, h8, h9, h10⟩ := hk
  cases hu : _down dom s <;>
    simp [_keydown, _isSearchFormFocused, hg, he, hu, Completion.andThen,
      Completion.withEvent, KeyboardEvent.preventDefault, h2.symm, h5.symm, h8, h9]

theorem _keydown_tab (kc : KeyCodeTable) (dom : Dom) (evt : KeyboardEvent) (s : State)
    (hk : kc.Distinct) (hg : s.activeElement ≠ s._searchForm) (he : evt.keyCode = kc.TAB) :
    _keydown kc dom evt s =
      if s._isShiftPressed = some true then (_up dom s).withEvent evt.preventDefault
      else (_down dom s).withEvent evt.preventDefault := by
  obtain ⟨h1, h2, h3, h4, h5, h6, h7, h8, h9, h10⟩ := hk
  by_cases hs : s._isShiftPressed = some true
  · cases hu : _up dom s <;>
      simp [_keydown, _isSearchFormFocused, hg, he, hu, hs, Completion.andThen,
        Completion.withEvent, KeyboardEvent.preventDefault, h3.symm, h6.symm, h8.symm, h10]
  · cases hu : _down dom s <;>
      simp [_keydown, _isSearchFormFocused, hg, he, hu, hs, Completion.andThen,
        Completion.withEvent, KeyboardEvent.preventDefault, h3.symm, h6.symm, h8.symm, h10]

theorem _keydown_right (kc : KeyCodeTable) (dom : Dom) (evt : KeyboardEvent) (s : State)
    (hk : kc.Distinct) (hg : s.activeElement ≠ s._searchForm) (he : evt.keyCode = kc.RIGHT) :
    _keydown kc dom evt s =
      if s._indexActiveLink = (s._links.length : Int) - 1 then .normal (s, evt.preventDefault)
      else .normal (s, evt) := by
  obtain ⟨h1, h2, h3, h4, h5, h6, h7, h8, h9, h10⟩ := hk
  by_cases hs : s._indexActiveLink = (s._links.length : Int) - 1 <;>
    simp [_keydown, _isSearchFormFocused, hg, he, hs, Completion.andThen,
      KeyboardEvent.preventDefault, h1.symm, h5, h6, h7]

theorem _keydown_shift (kc : KeyCodeTable) (dom : Dom) (evt : KeyboardEvent) (s : State)
    (hk : kc.Distinct) (hg : s.activeElement ≠ s._searchForm) (he : evt.keyCode = kc.SHIFT) :
    _keydown kc dom evt s = .normal ({ s with _isShiftPressed := some true }, evt) := by
  obtain ⟨h1, h2, h3, h4, h5, h6, h7, h8, h9, h10⟩ := hk
  simp [_keydown, _isSearchFormFocused, hg, he, Completion.andThen, h4.symm, h7.symm,
    h9.symm, h10.symm]

theorem _keydown_other (kc : KeyCodeTable) (dom : Dom) (evt : KeyboardEvent) (s : State)
    (h1 : evt.keyCode ≠ kc.UP) (h2 : evt.keyCode ≠ kc.RIGHT) (h3 : evt.keyCode ≠ kc.DOWN)
    (h4 : evt.keyCode ≠ kc.TAB) (h5 : evt.keyCode ≠ kc.SHIFT) :
    _keydown kc dom evt s = .normal (s, evt) := by
  by_cases hg : s.activeElement = s._searchForm
  · exact _keydown_gated kc dom evt s hg
  · simp [_keydown, _isSearchFormFocused, hg, Completion.andThen, h1, h2, h3, h4, h5]

/-! ## The listeners in place after one `init()` -/

theorem step_frame (kc : KeyCodeTable) (dom : Dom) (s0 : State) (ev : Event) (s : State)
    (h : Frame s0 s) : Frame s0 (step kc dom ev s) :=
  step_ind kc dom (Frame s0) (fun t ht => frame_trans ht (_up_frame dom t))
    (fun t ht => frame_trans ht (_down_frame dom t)) (fun _ _ ht => ht)
    (fun t ht => frame_trans ht (blur_focusFrame t).1)
    (fun t e ht => frame_trans ht (moveFocus_focusFrame e t).1) ev s h

theorem run_frame (kc : KeyCodeTable) (dom : Dom) (evs : List Event) (s : State) :
    Frame s (run kc dom evs s) :=
  run_ind kc dom (Frame s) (fun ev t => step_frame kc dom s ev t) evs s (frame_refl s)

theorem listenersOf_append (t : Target) (n : EventName) (l1 l2 : List (Target × Listener)) :
    listenersOf t n (l1 ++ l2) = listenersOf t n l1 ++ listenersOf t n l2 := by
  simp [listenersOf]

theorem listenersOf_document_nil (n : EventName) (ls : List (Target × Listener))
    (h : ∀ x, x ∈ ls → x.1 ≠ Target.document) : listenersOf .document n ls = [] := by
  unfold listenersOf
  rw [List.map_eq_nil_iff, List.filter_eq_nil_iff]
  intro x hx hc
  simp only [decide_eq_true_eq] at hc
  exact h x hx hc.1

theorem _setLinkLoop_noDocument (link : Option Elem) (ls : List Listener) (s : State)
    (h : ∀ x, x ∈ s.listeners → x.1 ≠ Target.document) :
    ∀ x, x ∈ (_setLinkLoop link ls s).state.listeners → x.1 ≠ Target.document := by
  induction ls generalizing s with
  | nil => exact h
  | cons l ls ih =>
    cases link with
    | none => exact h
    | some e =>
      rw [_setLinkLoop]
      refine ih _ ?_
      intro x hx
      rcases (mem_addEventListener x _ l s.listeners).mp hx with h' | h'
      · exact h x h'
      · rw [h']; simp

theorem _initLinksMap_noDocument (dom : Dom) (rs : List Elem) (acc : List (Option Elem))
    (s : State) (h : ∀ x, x ∈ s.listeners → x.1 ≠ Target.document) :
    ∀ x, x ∈ (_initLinksMap dom rs acc s).state.2.listeners → x.1 ≠ Target.document := by
  induction rs generalizing acc s with
  | nil => exact h
  | cons r rs ih =>
    rw [_initLinksMap]
    have h1 := _setLinkLoop_noDocument (dom.anchor r) s._linkListeners s h
    unfold _setLink
    cases hc : _setLinkLoop (dom.anchor r) s._linkListeners s with
    | thrown s1 => rw [hc] at h1; exact h1
    | normal s1 => rw [hc] at h1; exact ih _ _ h1

theorem _initLinks_noDocument (dom : Dom) (s : State)
    (h : ∀ x, x ∈ s.listeners → x.1 ≠ Target.document) :
    ∀ x, x ∈ (_initLinks dom s).state.listeners → x.1 ≠ Target.document := by
  have h1 := _initLinksMap_noDocument dom s._results [] s h
  unfold _initLinks
  cases hc : _initLinksMap dom s._results [] s with
  | thrown p => rw [hc] at h1; exact h1
  | normal p => rw [hc] at h1; exact h1

theorem _initLinks_normal_frame (dom : Dom) (s t : State) (h : _initLinks dom s = .normal t) :
    t._documentListeners = s._documentListeners ∧ t._linkListeners = s._linkListeners := by
  have hg := (_initLinksMap_spec dom s._results [] s).1
  unfold _initLinks at h
  cases hc : _initLinksMap dom s._results [] s with
  | thrown p => rw [hc] at h; cases h
  | normal p =>
    rw [hc] at h hg
    simp only [Completion.normal.injEq] at h
    rw [← h]
    exact ⟨hg.2.1, hg.1⟩

theorem _initLinks_thrown_links (dom : Dom) (s t : State) (h : _initLinks dom s = .thrown t) :
    t._links = s._links := by
  have hg := (_initLinksMap_spec dom s._results [] s).1
  unfold _initLinks at h
  cases hc : _initLinksMap dom s._results [] s with
  | thrown p =>
    rw [hc] at h hg
    simp only [Completion.thrown.injEq] at h
    rw [← h]
    exact hg.2.2.1
  | normal p => rw [hc] at h; cases h

/-- After `init()` on a fresh controller the document carries one keydown and one keyup
listener, unless `_initLinks` threw, in which case it carries none. -/
theorem init_docListens (dom : Dom) (results : List Elem) (searchForm activeElement : Elem)
    (A0 linkClass : List Elem) :
    DocListens (init dom (constructor results searchForm activeElement A0 linkClass)).state ∨
    DocSilent (init dom (constructor results searchForm activeElement A0 linkClass)).state := by
  generalize hc : constructor results searchForm activeElement A0 linkClass = c
  have hnd : ∀ x, x ∈ (_fillListeners c).listeners → x.1 ≠ Target.document := by
    intro x hx
    rw [← hc] at hx
    cases hx
  have hdl : (_fillListeners c)._documentListeners =
      [{ eventName := .keydown, callback := ._onDocumentKeydown },
       { eventName := .keyup, callback := ._onDocumentKeyup }] := by
    rw [← hc]; rfl
  have hnd2 := _initLinks_noDocument dom (_fillListeners c) hnd
  have hsf := setupFrame_trans (_fillListeners_setupFrame c)
    (_initLinks_setupFrame dom (_fillListeners c))
  unfold init
  cases hi : _initLinks dom (_fillListeners c) with
  | thrown t =>
    right
    rw [hi] at hnd2 hsf
    rw [state_thrown] at hnd2 hsf
    simp only [Completion.andThen, state_thrown]
    refine ⟨listenersOf_document_nil _ _ hnd2, listenersOf_document_nil _ _ hnd2, ?_, ?_⟩
    · rw [_initLinks_thrown_links dom _ t hi, ← hc]; rfl
    · rw [hsf.2.2.1, ← hc]; rfl
  | normal t =>
    left
    rw [hi] at hnd2
    rw [state_normal] at hnd2
    simp only [Completion.andThen]
    have hl := (_focus_focusFrame dom (arrayGet t._links 0)
      (_setListeners .document t._documentListeners t)).1.2.2.2.2.2.2
    unfold DocListens
    rw [hl, (_initLinks_normal_frame dom _ t hi).1, hdl]
    have h1 : (Target.document,
        ({ eventName := .keydown, callback := ._onDocumentKeydown } : Listener)) ∉
        t.listeners := fun hx => hnd2 _ hx rfl
    have h2 : (Target.document,
        ({ eventName := .keyup, callback := ._onDocumentKeyup } : Listener)) ∉
        t.listeners ++ [(Target.document,
          ({ eventName := .keydown, callback := ._onDocumentKeydown } : Listener))] := by
      intro hx
      rcases List.mem_append.mp hx with h' | h'
      · exact hnd2 _ h' rfl
      · simp at h'
    simp only [_setListeners, addEventListener, if_neg h1, if_neg h2]
    simp only [listenersOf_append, listenersOf_document_nil _ _ hnd2]
    constructor <;> simp [listenersOf]

theorem docListens_of_frame {s t : State} (hf : Frame s t) (h : DocListens s) :
    DocListens t := by
  unfold DocListens
  rw [hf.2.2.2.2.2.2]
  exact h

/-- With the listeners of one `init()` in place, a keydown runs `_keydown` once. -/
theorem dispatchKey_keydown (kc : KeyCodeTable) (dom : Dom) (k : Nat) (s : State)
    (h : DocListens s) :
    dispatchKey kc dom .keydown k s =
      (_keydown kc dom { keyCode := k, defaultPrevented := false } s).state := by
  unfold dispatchKey
  rw [h.1]
  rfl

/-- With the listeners of one `init()` in place, a keyup runs `_keyup` once. -/
theorem dispatchKey_keyup (kc : KeyCodeTable) (dom : Dom) (k : Nat) (s : State)
    (h : DocListens s) :
    dispatchKey kc dom .keyup k s =
      (_keyup kc { keyCode := k, defaultPrevented := false } s,
        { keyCode := k, defaultPrevented := false }) := by
  unfold dispatchKey
  rw [h.2]
  rfl

theorem step_docSilent (kc : KeyCodeTable) (dom : Dom) (ev : Event) (s : State)
    (h : DocSilent s) : DocSilent (step kc dom ev s) := by
  obtain ⟨h1, h2, h3, h4⟩ := h
  have key : ∀ t, FocusFrame s t → DocSilent t := by
    intro t ht
    refine ⟨?_, ?_, ?_, ?_⟩
    · rw [ht.1.2.2.2.2.2.2]; exact h1
    · rw [ht.1.2.2.2.2.2.2]; exact h2
    · rw [ht.1.2.2.2.2.1]; exact h3
    · rw [ht.2.1]; exact h4
  cases ev with
  | keydown k => simp only [step, dispatchKey, h1, List.foldl_nil]; exact ⟨h1, h2, h3, h4⟩
  | keyup k => simp only [step, dispatchKey, h2, List.foldl_nil]; exact ⟨h1, h2, h3, h4⟩
  | blur e => exact key _ (dispatchBlur_focusFrame e s)
  | focusMove e => exact key _ (moveFocus_focusFrame e s)

/-- What every reachable state knows about its listeners. -/
theorem reachable_listens (kc : KeyCodeTable) (dom : Dom) (s : State)
    (h : Reachable kc dom s) : LinksListen s ∧ (DocListens s ∨ DocSilent s) := by
  obtain ⟨results, searchForm, activeElement, A0, linkClass, evs, rfl⟩ := h
  refine ⟨linksListen_of_frame (run_frame kc dom evs _)
    (init_linksListen dom results searchForm activeElement A0 linkClass), ?_⟩
  rcases init_docListens dom results searchForm activeElement A0 linkClass with h | h
  · exact Or.inl (docListens_of_frame (run_frame kc dom evs _) h)
  · exact Or.inr (run_ind kc dom DocSilent (fun ev t => step_docSilent kc dom ev t) evs _ h)

theorem reachable_step (kc : KeyCodeTable) (dom : Dom) (ev : Event) (s : State)
    (h : Reachable kc dom s) : Reachable kc dom (step kc dom ev s) := by
  obtain ⟨results, searchForm, activeElement, A0, linkClass, evs, rfl⟩ := h
  refine ⟨results, searchForm, activeElement, A0, linkClass, evs ++ [ev], ?_⟩
  simp [run, List.foldl_append]

/-! ## Moving from one link to the next -/

theorem arrayGet_map_some (ls : List Elem) (n : Nat) :
    arrayGet (ls.map some) (n : Int) = ls[n]? := by
  unfold arrayGet
  rw [if_pos (Int.natCast_nonneg n), Int.toNat_natCast, List.getElem?_map]
  cases ls[n]? <;> rfl

theorem wrapper_eq_some (dom : Dom) (l w : Elem) (h : wrapper dom l = some w) :
    ∃ p, dom.parentElement l = some p ∧ dom.parentElement p = some w := by
  unfold wrapper at h
  cases hp : dom.parentElement l with
  | none => rw [hp] at h; cases h
  | some p => rw [hp] at h; exact ⟨p, rfl, h⟩

/-- Focusing another link while a link of the list is focused and marked: the old link's
blur handler clears the mark, then focus moves. -/
theorem moveFocus_from_link (s : State) (l l' w : Elem) (hll : LinksListen s)
    (hfoc : s.activeElement = l) (hmem : some l ∈ s._links) (hne : l ≠ l')
    (hact : s._activeElement = some w) :
    moveFocus l' s = { s with _isAnyLinkFocused := false,
                              activeClass := classListRemove w s.activeClass,
                              _activeElement := none,
                              activeElement := l' } := by
  unfold moveFocus
  rw [if_neg (by rw [hfoc]; exact hne), dispatchBlur_eq, hfoc, if_pos (hll l hmem),
    _blur_some s w hact]
  rfl

theorem _focus_same (dom : Dom) (s : State) (l w : Elem) (hfoc : s.activeElement = l)
    (hw : wrapper dom l = some w) :
    _focus dom (some l) s =
      .normal { s with _activeElement := some w,
                       activeClass := classListAdd w s.activeClass } := by
  obtain ⟨p, hp, hpw⟩ := wrapper_eq_some dom l w hw
  rw [_focus_ok dom l p w s hp hpw]
  have : focus dom l s = s := by
    unfold focus moveFocus
    rw [if_pos hfoc]
    split <;> rfl
  rw [this]

theorem _focus_move (dom : Dom) (s : State) (l l' w w' : Elem) (hll : LinksListen s)
    (hfoc : s.activeElement = l) (hmem : some l ∈ s._links) (hne : l ≠ l')
    (hact : s._activeElement = some w) (hw' : wrapper dom l' = some w')
    (hf' : dom.focusable l' = true) :
    _focus dom (some l') s =
      .normal { s with _isAnyLinkFocused := false,
                       activeElement := l',
                       _activeElement := some w',
                       activeClass := classListAdd w' (classListRemove w s.activeClass) } := by
  obtain ⟨p, hp, hpw⟩ := wrapper_eq_some dom l' w' hw'
  rw [_focus_ok dom l' p w' s hp hpw, focus_of_focusable dom l' s hf',
    moveFocus_from_link s l l' w hll hfoc hmem hne hact]

theorem nodup_getElem?_ne (ls : List Elem) (hnd : ls.Nodup) (i j : Nat) (a b : Elem)
    (hi : ls[i]? = some a) (hj : ls[j]? = some b) (hij : i ≠ j) : a ≠ b := by
  obtain ⟨hi', ha⟩ := List.getElem?_eq_some_iff.mp hi
  obtain ⟨hj', hb⟩ := List.getElem?_eq_some_iff.mp hj
  intro hab
  rw [← ha, ← hb] at hab
  exact hij ((List.Nodup.getElem_inj_iff hnd).mp hab)

/-- C3, as the code has it. In a reachable state with distinct links in distinct entry
wrappers, the search input not focused, link `i` focused, its wrapper `w` stored as active
element and carrying `active`: a Down keydown below the last index, link `i + 1` being
focusable, moves the index to `i + 1`, focuses link `i + 1`, takes `active` off `w` and
puts it on the wrapper of link `i + 1`; at the last index it leaves index and focus where
they are and `w` still active. -/
theorem down_moves_focus_and_mark (kc : KeyCodeTable) (dom : Dom) (s : State)
    (ls : List Elem) (i : Nat) (l w : Elem)
    (hk : kc.Distinct) (hr : Reachable kc dom s)
    (hlinks : s._links = ls.map some) (hnd : ls.Nodup)
    (hinj : ∀ a, a ∈ ls → ∀ b, b ∈ ls → wrapper dom a = wrapper dom b → a = b)
    (hgate : s.activeElement ≠ s._searchForm)
    (hidx : s._indexActiveLink = (i : Int)) (hli : ls[i]? = some l)
    (hfoc : s.activeElement = l) (hw : wrapper dom l = some w)
    (hact : s._activeElement = some w) (hcls : w ∈ s.activeClass) :
    (∀ l' w', ls[i + 1]? = some l' → wrapper dom l' = some w' → dom.focusable l' = true →
      (step kc dom (.keydown kc.DOWN) s)._indexActiveLink = (i : Int) + 1 ∧
      (step kc dom (.keydown kc.DOWN) s).activeElement = l' ∧
      (step kc dom (.keydown kc.DOWN) s)._activeElement = some w' ∧
      w ∉ (step kc dom (.keydown kc.DOWN) s).activeClass ∧
      w' ∈ (step kc dom (.keydown kc.DOWN) s).activeClass) ∧
    (i + 1 = ls.length →
      (step kc dom (.keydown kc.DOWN) s)._indexActiveLink = (i : Int) ∧
      (step kc dom (.keydown kc.DOWN) s).activeElement = l ∧
      (step kc dom (.keydown kc.DOWN) s)._activeElement = some w ∧
      w ∈ (step kc dom (.keydown kc.DOWN) s).activeClass) := by
  obtain ⟨hll, hdoc⟩ := reachable_listens kc dom s hr
  obtain ⟨hi', hl⟩ := List.getElem?_eq_some_iff.mp hli
  have hlmem : l ∈ ls := by rw [← hl]; exact List.getElem_mem _
  have hlen : s._links.length = ls.length := by rw [hlinks, List.length_map]
  have hdl : DocListens s := by
    rcases hdoc with h | h
    · exact h
    · have := h.2.2.1
      rw [hlinks] at this
      have h0 : ls = [] := by simpa using this
      rw [h0] at hi'
      cases hi'
  have hstep : step kc dom (.keydown kc.DOWN) s = (_down dom s).state := by
    simp only [step]
    rw [dispatchKey_keydown kc dom _ s hdl, _keydown_down kc dom _ s hk hgate rfl,
      withEvent_state]
  rw [hstep]
  have hsmem : some l ∈ s._links := by
    rw [hlinks]; exact List.mem_map_of_mem some hlmem
  constructor
  · intro l' w' hl' hw' hf'
    obtain ⟨hi2, hl2⟩ := List.getElem?_eq_some_iff.mp hl'
    have hl'mem : l' ∈ ls := by rw [← hl2]; exact List.getElem_mem _
    have hne : l ≠ l' := nodup_getElem?_ne ls hnd i (i + 1) l l' hli hl' (by omega)
    have hwne : w ≠ w' := by
      intro hc
      exact hne (hinj l hlmem l' hl'mem (by rw [hw, hw', hc]))
    have hcond : ¬ s._indexActiveLink = (s._links.length : Int) - 1 := by
      rw [hidx, hlen]; omega
    have hget : arrayGet s._links (s._indexActiveLink + 1) = some l' := by
      rw [hlinks, hidx]
      have := arrayGet_map_some ls (i + 1)
      rw [Nat.cast_add, Nat.cast_one] at this
      rw [this, hl']
    unfold _down
    simp only [hcond, decide_False, Bool.not_false, if_true]
    rw [hget, _focus_move dom { s with _indexActiveLink := s._indexActiveLink + 1 } l l' w w'
      hll hfoc hsmem hne hact hw' hf']
    refine ⟨by simp [hidx], rfl, rfl, ?_, ?_⟩
    · simp only [state_normal]
      intro hc
      rcases (mem_classListAdd _ _ _).mp hc with h | h
      · exact ((mem_classListRemove _ _ _).mp h).2 rfl
      · exact hwne h
    · simp only [state_normal]
      exact (mem_classListAdd _ _ _).mpr (Or.inr rfl)
  · intro hlast
    have hcond : s._indexActiveLink = (s._links.length : Int) - 1 := by
      rw [hidx, hlen]; omega
    have hget : arrayGet s._links ((s._links.length : Int) - 1) = some l := by
      rw [← hcond, hlinks, hidx, arrayGet_map_some, hli]
    unfold _down
    simp only [hcond, decide_True, Bool.not_true, Bool.false_eq_true, if_false]
    rw [hget, _focus_same dom { s with _indexActiveLink := (s._links.length : Int) - 1 } l w
      hfoc hw]
    refine ⟨by simp [hlen]; omega, hfoc, rfl, ?_⟩
    simp only [state_normal]
    exact (mem_classListAdd _ _ _).mpr (Or.inl hcls)

/-- C3 as stated fails on the three-link page whose link 22 is an anchor without `href`.
Right after `init()` the links and their wrappers are distinct, the search input is not
focused, link 12 at index 0 is focused and its entry 10 is the active element; yet after a
Down keydown the index is 1 while link 12 is still focused (not link 22) and entry 10 still
carries `active`. -/
theorem down_moves_focus_and_mark_counterexample :
    ((init (page3With [22]) ctl3).isNormal = true ∧
      (init (page3With [22]) ctl3).state._links = [12, 22, 32].map some ∧
      (init (page3With [22]) ctl3).state._indexActiveLink = 0 ∧
      (init (page3With [22]) ctl3).state.activeElement = 12 ∧
      (init (page3With [22]) ctl3).state.activeElement ≠
        (init (page3With [22]) ctl3).state._searchForm ∧
      (init (page3With [22]) ctl3).state._activeElement = some 10 ∧
      10 ∈ (init (page3With [22]) ctl3).state.activeClass ∧
      wrapper (page3With [22]) 12 = some 10 ∧ wrapper (page3With [22]) 22 = some 20 ∧
      wrapper (page3With [22]) 32 = some 30) ∧
    ((step domKeyCodes (page3With [22]) (.keydown domKeyCodes.DOWN)
        (init (page3With [22]) ctl3).state)._indexActiveLink = 1 ∧
      (step domKeyCodes (page3With [22]) (.keydown domKeyCodes.DOWN)
        (init (page3With [22]) ctl3).state).activeElement = 12 ∧
      (step domKeyCodes (page3With [22]) (.keydown domKeyCodes.DOWN)
        (init (page3With [22]) ctl3).state).activeElement ≠ 22 ∧
      10 ∈ (step domKeyCodes (page3With [22]) (.keydown domKeyCodes.DOWN)
        (init (page3With [22]) ctl3).state).activeClass) := by
  decide

/-- C3 (amended) on the three-link page right after `init()`: Down moves from link 12
(entry 10) to the focusable link 22 (entry 20). -/
theorem down_moves_focus_and_mark_witness :
    (Reachable domKeyCodes page3 (init page3 ctl3).state ∧
      (init page3 ctl3).state._links = [12, 22, 32].map some ∧
      (init page3 ctl3).state.activeElement = 12 ∧
      (init page3 ctl3).state._activeElement = some 10 ∧
      10 ∈ (init page3 ctl3).state.activeClass ∧
      page3.focusable 22 = true) ∧
    ((step domKeyCodes page3 (.keydown domKeyCodes.DOWN)
        (init page3 ctl3).state)._indexActiveLink = ((0 : Nat) : Int) + 1 ∧
      (step domKeyCodes page3 (.keydown domKeyCodes.DOWN)
        (init page3 ctl3).state).activeElement = 22 ∧
      (step domKeyCodes page3 (.keydown domKeyCodes.DOWN)
        (init page3 ctl3).state)._activeElement = some 20 ∧
      10 ∉ (step domKeyCodes page3 (.keydown domKeyCodes.DOWN)
        (init page3 ctl3).state).activeClass ∧
      20 ∈ (step domKeyCodes page3 (.keydown domKeyCodes.DOWN)
        (init page3 ctl3).state).activeClass) :=
  ⟨⟨⟨[10, 20, 30], 1, 0, [], [], [], rfl⟩, by decide, by decide, by decide, by decide,
      by decide⟩,
    (down_moves_focus_and_mark domKeyCodes page3 (init page3 ctl3).state [12, 22, 32] 0 12 10
      (by decide) ⟨[10, 20, 30], 1, 0, [], [], [], rfl⟩ (by decide) (by decide)
      (by decide) (by decide) (by decide) (by decide) (by decide) (by decide) (by decide)
      (by decide)).1 22 20 (by decide) (by decide) (by decide)⟩

/-! ## Clamped index movement -/

/-- C4. With the index in `[0, n - 1]` (so that there is at least one link), `_up` stores `max (i - 1) 0`
and `_down` stores `min (i + 1) (n - 1)` as the index, and each then calls `_focus` on the
link held at that new index. -/
theorem up_down_clamped (dom : Dom) (s : State) (h0 : 0 ≤ s._indexActiveLink)
    (h1 : s._indexActiveLink ≤ (s._links.length : Int) - 1) :
    (_up dom s =
        _focus dom (arrayGet s._links (max (s._indexActiveLink - 1) 0))
          { s with _indexActiveLink := max (s._indexActiveLink - 1) 0 } ∧
      (_up dom s).state._indexActiveLink = max (s._indexActiveLink - 1) 0) ∧
    (_down dom s =
        _focus dom (arrayGet s._links (min (s._indexActiveLink + 1) ((s._links.length : Int) - 1)))
          { s with _indexActiveLink :=
              (min (s._indexActiveLink + 1) ((s._links.length : Int) - 1)) } ∧
      (_down dom s).state._indexActiveLink =
        min (s._indexActiveLink + 1) ((s._links.length : Int) - 1)) := by
  have hup : (if !decide (s._indexActiveLink = 0) then
        ({ s with _indexActiveLink := s._indexActiveLink - 1 } : State)
      else { s with _indexActiveLink := 0 }) =
      { s with _indexActiveLink := max (s._indexActiveLink - 1) 0 } := by
    by_cases h : s._indexActiveLink = 0
    · simp [h]
    · have hm : max (s._indexActiveLink - 1) 0 = s._indexActiveLink - 1 := by omega
      simp [h, hm]
  have hdown : (if !decide (s._indexActiveLink = (s._links.length : Int) - 1) then
        ({ s with _indexActiveLink := s._indexActiveLink + 1 } : State)
      else { s with _indexActiveLink := (s._links.length : Int) - 1 }) =
      { s with _indexActiveLink :=
          (min (s._indexActiveLink + 1) ((s._links.length : Int) - 1)) } := by
    by_cases h : s._indexActiveLink = (s._links.length : Int) - 1
    · have hm : min (s._indexActiveLink + 1) ((s._links.length : Int) - 1) =
          (s._links.length : Int) - 1 := by omega
      simp [h]
    · have hm : min (s._indexActiveLink + 1) ((s._links.length : Int) - 1) =
          s._indexActiveLink + 1 := by omega
      simp [h, hm]
  have e1 : _up dom s =
      _focus dom (arrayGet s._links (max (s._indexActiveLink - 1) 0))
        { s with _indexActiveLink := max (s._indexActiveLink - 1) 0 } := by
    unfold _up
    simp only [hup]
  have e2 : _down dom s =
      _focus dom (arrayGet s._links (min (s._indexActiveLink + 1) ((s._links.length : Int) - 1)))
        { s with _indexActiveLink :=
            (min (s._indexActiveLink + 1) ((s._links.length : Int) - 1)) } := by
    unfold _down
    simp only [hdown]
  refine ⟨⟨e1, ?_⟩, ⟨e2, ?_⟩⟩
  · rw [e1, (_focus_focusFrame dom _ _).2.1]
  · rw [e2, (_focus_focusFrame dom _ _).2.1]

/-- C4 on the three-link page right after `init()` (index 0 of 3). -/
theorem up_down_clamped_witness :
    (0 ≤ (init page3 ctl3).state._indexActiveLink ∧
      (init page3 ctl3).state._indexActiveLink ≤
        ((init page3 ctl3).state._links.length : Int) - 1) ∧
    (_up page3 (init page3 ctl3).state).state._indexActiveLink =
      max ((init page3 ctl3).state._indexActiveLink - 1) 0 ∧
    (_down page3 (init page3 ctl3).state).state._indexActiveLink =
      min ((init page3 ctl3).state._indexActiveLink + 1)
        (((init page3 ctl3).state._links.length : Int) - 1) :=
  ⟨⟨by decide, by decide⟩,
    (up_down_clamped page3 (init page3 ctl3).state (by decide) (by decide)).1.2,
    (up_down_clamped page3 (init page3 ctl3).state (by decide) (by decide)).2.2⟩

/-! ## Tab -/

theorem dispatchKey_silent (kc : KeyCodeTable) (dom : Dom) (k : Nat) (s : State)
    (h : DocSilent s) :
    dispatchKey kc dom .keydown k s = (s, { keyCode := k, defaultPrevented := false }) := by
  unfold dispatchKey
  rw [h.1]
  rfl

/-- C5. In a reachable state with the search input not focused, a Tab keydown ends in the
same state and with the same `defaultPrevented` as an Up keydown when the shift flag is
`true`, and as a Down keydown when it is `false` or unset. On the three-link page, from
index 2: Shift down then Tab gives index 1 (link 22 focused), Shift up then Tab gives
index 2 (link 32 focused). -/
theorem tab_is_up_or_down (kc : KeyCodeTable) (dom : Dom) (s : State) (hk : kc.Distinct)
    (hr : Reachable kc dom s) (hgate : s.activeElement ≠ s._searchForm) :
    ((dispatchKey kc dom .keydown kc.TAB s).1 =
        (dispatchKey kc dom .keydown
          (if s._isShiftPressed = some true then kc.UP else kc.DOWN) s).1 ∧
      (dispatchKey kc dom .keydown kc.TAB s).2.defaultPrevented =
        (dispatchKey kc dom .keydown
          (if s._isShiftPressed = some true then kc.UP else kc.DOWN) s).2.defaultPrevented) ∧
    ((run domKeyCodes page3 [.keydown 40, .keydown 40]
        (init page3 ctl3).state)._indexActiveLink = 2 ∧
      (run domKeyCodes page3 [.keydown 40, .keydown 40, .keydown 16, .keydown 9]
        (init page3 ctl3).state)._indexActiveLink = 1 ∧
      (run domKeyCodes page3 [.keydown 40, .keydown 40, .keydown 16, .keydown 9]
        (init page3 ctl3).state).activeElement = 22 ∧
      (run domKeyCodes page3
        [.keydown 40, .keydown 40, .keydown 16, .keydown 9, .keyup 16, .keydown 9]
        (init page3 ctl3).state)._indexActiveLink = 2 ∧
      (run domKeyCodes page3
        [.keydown 40, .keydown 40, .keydown 16, .keydown 9, .keyup 16, .keydown 9]
        (init page3 ctl3).state).activeElement = 32) := by
  refine ⟨?_, by decide⟩
  rcases (reachable_listens kc dom s hr).2 with hd | hd
  · rw [dispatchKey_keydown kc dom _ s hd, dispatchKey_keydown kc dom _ s hd,
      _keydown_tab kc dom _ s hk hgate rfl]
    by_cases hs : s._isShiftPressed = some true
    · rw [if_pos hs, if_pos hs, _keydown_up kc dom _ s hk hgate rfl, withEvent_state,
        withEvent_state]
      exact ⟨rfl, rfl⟩
    · rw [if_neg hs, if_neg hs, _keydown_down kc dom _ s hk hgate rfl, withEvent_state,
        withEvent_state]
      exact ⟨rfl, rfl⟩
  · rw [dispatchKey_silent kc dom _ s hd, dispatchKey_silent kc dom _ s hd]
    exact ⟨rfl, rfl⟩

/-- C5 right after `init()` on the three-link page, the shift flag unset: Tab acts as
Down. -/
theorem tab_is_up_or_down_witness :
    (domKeyCodes.Distinct ∧ Reachable domKeyCodes page3 (init page3 ctl3).state ∧
      (init page3 ctl3).state.activeElement ≠ (init page3 ctl3).state._searchForm) ∧
    (dispatchKey domKeyCodes page3 .keydown domKeyCodes.TAB (init page3 ctl3).state).1 =
      (dispatchKey domKeyCodes page3 .keydown
        (if (init page3 ctl3).state._isShiftPressed = some true then domKeyCodes.UP
          else domKeyCodes.DOWN) (init page3 ctl3).state).1 :=
  ⟨⟨by decide, ⟨[10, 20, 30], 1, 0, [], [], [], rfl⟩, by decide⟩,
    (tab_is_up_or_down domKeyCodes page3 (init page3 ctl3).state (by decide)
      ⟨[10, 20, 30], 1, 0, [], [], [], rfl⟩ (by decide)).1.1⟩

/-! ## The search-field gate -/

/-- C6. While the search input is `document.activeElement`, `_keydown` returns at once for
every key code, and in a reachable state a keydown of any key leaves the whole state as it
is (index, focused element, stored active element, `active` classes, shift flag) and the
event not default-prevented. -/
theorem search_field_gates_keydown (kc : KeyCodeTable) (dom : Dom) (s : State) (k : Nat)
    (hr : Reachable kc dom s) (hgate : s.activeElement = s._searchForm) :
    _keydown kc dom { keyCode := k, defaultPrevented := false } s =
      .normal (s, { keyCode := k, defaultPrevented := false }) ∧
    step kc dom (.keydown k) s = s ∧
    (dispatchKey kc dom .keydown k s).2.defaultPrevented = false := by
  have hh := _keydown_gated kc dom { keyCode := k, defaultPrevented := false } s hgate
  refine ⟨hh, ?_⟩
  simp only [step]
  rcases (reachable_listens kc dom s hr).2 with hd | hd
  · rw [dispatchKey_keydown kc dom _ s hd, hh]
    exact ⟨rfl, rfl⟩
  · rw [dispatchKey_silent kc dom _ s hd]
    exact ⟨rfl, rfl⟩

/-- C6 on the three-link page after a click into the search input (element 1): Down is
ignored. -/
theorem search_field_gates_keydown_witness :
    (Reachable domKeyCodes page3 (run domKeyCodes page3 [.focusMove 1] (init page3 ctl3).state) ∧
      (run domKeyCodes page3 [.focusMove 1] (init page3 ctl3).state).activeElement =
        (run domKeyCodes page3 [.focusMove 1] (init page3 ctl3).state)._searchForm) ∧
    step domKeyCodes page3 (.keydown 40)
        (run domKeyCodes page3 [.focusMove 1] (init page3 ctl3).state) =
      run domKeyCodes page3 [.focusMove 1] (init page3 ctl3).state :=
  ⟨⟨⟨[10, 20, 30], 1, 0, [], [], [.focusMove 1], rfl⟩, by decide⟩,
    (search_field_gates_keydown domKeyCodes page3
      (run domKeyCodes page3 [.focusMove 1] (init page3 ctl3).state) 40
      ⟨[10, 20, 30], 1, 0, [], [], [.focusMove 1], rfl⟩ (by decide)).2.1⟩

/-! ## The Right key -/

/-- C7. In a reachable state with the search input not focused, a Right keydown is
default-prevented exactly when the index equals `linkCount - 1`, and leaves the state as
it is. On the three-link page it is prevented at index 2 and not at index 0 or 1. -/
theorem right_key_boundary (kc : KeyCodeTable) (dom : Dom) (s : State) (hk : kc.Distinct)
    (hr : Reachable kc dom s) (hgate : s.activeElement ≠ s._searchForm) :
    (((dispatchKey kc dom .keydown kc.RIGHT s).2.defaultPrevented = true ↔
        s._indexActiveLink = (s._links.length : Int) - 1) ∧
      step kc dom (.keydown kc.RIGHT) s = s) ∧
    ((dispatchKey domKeyCodes page3 .keydown 39
        (init page3 ctl3).state).2.defaultPrevented = false ∧
      (dispatchKey domKeyCodes page3 .keydown 39
        (run domKeyCodes page3 [.keydown 40] (init page3 ctl3).state)).2.defaultPrevented =
          false ∧
      (dispatchKey domKeyCodes page3 .keydown 39
        (run domKeyCodes page3 [.keydown 40, .keydown 40]
          (init page3 ctl3).state)).2.defaultPrevented = true) := by
  refine ⟨?_, by decide⟩
  simp only [step]
  rcases (reachable_listens kc dom s hr).2 with hd | hd
  · rw [dispatchKey_keydown kc dom _ s hd, _keydown_right kc dom _ s hk hgate rfl]
    by_cases hi : s._indexActiveLink = (s._links.length : Int) - 1
    · rw [if_pos hi]
      exact ⟨⟨fun _ => hi, fun _ => rfl⟩, rfl⟩
    · rw [if_neg hi]
      refine ⟨⟨fun h => ?_, fun h => absurd h hi⟩, rfl⟩
      cases h
  · rw [dispatchKey_silent kc dom _ s hd]
    refine ⟨⟨fun h => ?_, fun h => ?_⟩, rfl⟩
    · cases h
    · rw [hd.2.2.1, hd.2.2.2] at h
      simp at h

/-- C7 on the three-link page at index 2. -/
theorem right_key_boundary_witness :
    (domKeyCodes.Distinct ∧
      Reachable domKeyCodes page3
        (run domKeyCodes page3 [.keydown 40, .keydown 40] (init page3 ctl3).state) ∧
      (run domKeyCodes page3 [.keydown 40, .keydown 40] (init page3 ctl3).state).activeElement ≠
        (run domKeyCodes page3 [.keydown 40, .keydown 40] (init page3 ctl3).state)._searchForm) ∧
    step domKeyCodes page3 (.keydown domKeyCodes.RIGHT)
        (run domKeyCodes page3 [.keydown 40, .keydown 40] (init page3 ctl3).state) =
      run domKeyCodes page3 [.keydown 40, .keydown 40] (init page3 ctl3).state :=
  ⟨⟨by decide, ⟨[10, 20, 30], 1, 0, [], [], [.keydown 40, .keydown 40], rfl⟩, by decide⟩,
    (right_key_boundary domKeyCodes page3
      (run domKeyCodes page3 [.keydown 40, .keydown 40] (init page3 ctl3).state) (by decide)
      ⟨[10, 20, 30], 1, 0, [], [], [.keydown 40, .keydown 40], rfl⟩ (by decide)).1.2⟩

/-! ## Deduplication by `_initLinks` -/

theorem _initLinksMap_normal (dom : Dom) (rs : List Elem) (acc : List (Option Elem))
    (s : State) (hwf : ∀ r, r ∈ rs → (dom.anchor r).isSome = true) :
    ∃ t, _initLinksMap dom rs acc s = .normal (acc ++ rs.map dom.anchor, t) := by
  induction rs generalizing acc s with
  | nil => exact ⟨s, by simp [_initLinksMap]⟩
  | cons r rs ih =>
    obtain ⟨e, he⟩ := Option.isSome_iff_exists.mp (hwf r (List.mem_cons_self _ _))
    obtain ⟨t1, ht1, -, -⟩ := _setLinkLoop_some e s._linkListeners s
    obtain ⟨t, ht⟩ := ih (acc ++ [dom.anchor r]) t1
      (fun r' hr' => hwf r' (List.mem_cons_of_mem _ hr'))
    refine ⟨t, ?_⟩
    rw [_initLinksMap]
    unfold _setLink
    rw [he] at ht ⊢
    rw [ht1]
    simp only
    rw [ht]
    simp [he]

/-- When every entry has an anchor, `_initLinks` returns, and the link list is the list of
first occurrences of the entries' anchors. -/
theorem _initLinks_normal (dom : Dom) (s : State)
    (hwf : ∀ r, r ∈ s._results → (dom.anchor r).isSome = true) :
    ∃ t, _initLinks dom s = .normal t ∧
      t._links = firstOccurrences (s._results.map dom.anchor) := by
  obtain ⟨u, hu⟩ := _initLinksMap_normal dom s._results [] s hwf
  have : ∃ t, _initLinks dom s = .normal t := by
    unfold _initLinks
    rw [hu]
    exact ⟨_, rfl⟩
  obtain ⟨t, ht⟩ := this
  exact ⟨t, ht, _initLinks_links dom s t ht⟩

theorem nodup_getElem?_inj {α : Type} (ls : List α) (hnd : ls.Nodup) (i j : Nat) (a : α)
    (hi : ls[i]? = some a) (hj : ls[j]? = some a) : i = j := by
  obtain ⟨hi', ha⟩ := List.getElem?_eq_some_iff.mp hi
  obtain ⟨hj', hb⟩ := List.getElem?_eq_some_iff.mp hj
  exact (List.Nodup.getElem_inj_iff hnd).mp (ha.trans hb.symm)

theorem arrayGet_eq_some (array : List (Option Elem)) (i : Int) (l : Elem)
    (h : arrayGet array i = some l) : 0 ≤ i ∧ array[i.toNat]? = some (some l) := by
  unfold arrayGet at h
  split at h
  · rename_i h0
    refine ⟨h0, ?_⟩
    cases hg : array[i.toNat]? with
    | none => rw [hg] at h; cases h
    | some o =>
      rw [hg] at h
      have ho : o = some l := h
      rw [ho]
  · cases h

/-- C8. When every result entry has an anchor, `_initLinks` returns and the link list it
stores holds no element twice: no link is found under two different indices, and two
entries resolving to the same anchor give a list of length 1. -/
theorem initLinks_no_duplicates (dom : Dom) (s : State)
    (hwf : ∀ r, r ∈ s._results → (dom.anchor r).isSome = true) :
    ∃ t, _initLinks dom s = .normal t ∧ t._links.Nodup ∧
      (∀ i j l, arrayGet t._links i = some l → arrayGet t._links j = some l → i = j) ∧
      (∀ r1 r2, s._results = [r1, r2] → dom.anchor r1 = dom.anchor r2 →
        t._links.length = 1) := by
  obtain ⟨t, ht, hl⟩ := _initLinks_normal dom s hwf
  have hnd : t._links.Nodup := by
    rw [hl]
    exact keepFirst_nodup [] _
  refine ⟨t, ht, hnd, ?_, ?_⟩
  · intro i j l hi hj
    obtain ⟨hi0, hi'⟩ := arrayGet_eq_some _ _ _ hi
    obtain ⟨hj0, hj'⟩ := arrayGet_eq_some _ _ _ hj
    have := nodup_getElem?_inj t._links hnd _ _ _ hi' hj'
    omega
  · intro r1 r2 hres heq
    rw [hl, hres]
    simp [firstOccurrences, keepFirst, heq]

/-- C8 on a page whose two entries 10 and 20 share the anchor 12. -/
theorem initLinks_no_duplicates_witness :
    (∀ r, r ∈ (_fillListeners (constructor [10, 20] 1 0 [] []))._results →
      (pageShared.anchor r).isSome = true) ∧
    ∃ t, _initLinks pageShared (_fillListeners (constructor [10, 20] 1 0 [] [])) = .normal t ∧
      t._links.Nodup ∧
      (∀ i j l, arrayGet t._links i = some l → arrayGet t._links j = some l → i = j) ∧
      (∀ r1 r2, (_fillListeners (constructor [10, 20] 1 0 [] []))._results = [r1, r2] →
        pageShared.anchor r1 = pageShared.anchor r2 → t._links.length = 1) :=
  ⟨by decide,
    initLinks_no_duplicates pageShared (_fillListeners (constructor [10, 20] 1 0 [] []))
      (by decide)⟩

/-! ## Order of the link list -/

theorem keepFirst_indexOf_lt {α : Type} [DecidableEq α] (seen xs : List α) (x y : α)
    (hx : x ∈ xs) (hy : y ∈ xs) (hxs : x ∉ seen) (hys : y ∉ seen) :
    List.indexOf x (keepFirst seen xs) < List.indexOf y (keepFirst seen xs) ↔
      List.indexOf x xs < List.indexOf y xs := by
  induction xs generalizing seen with
  | nil => cases hx
  | cons z zs ih =>
    rw [keepFirst]
    by_cases hz : z ∈ seen
    · have hzx : z ≠ x := fun h => hxs (h ▸ hz)
      have hzy : z ≠ y := fun h => hys (h ▸ hz)
      have hx' : x ∈ zs := (List.mem_cons.mp hx).resolve_left (fun h => hzx h.symm)
      have hy' : y ∈ zs := (List.mem_cons.mp hy).resolve_left (fun h => hzy h.symm)
      rw [if_pos hz, List.indexOf_cons_ne _ hzx, List.indexOf_cons_ne _ hzy,
        ih seen hx' hy' hxs hys]
      omega
    · rw [if_neg hz]
      by_cases hzx : z = x
      · by_cases hzy : z = y
        · rw [List.indexOf_cons_eq _ hzx, List.indexOf_cons_eq _ hzy,
            List.indexOf_cons_eq _ hzx, List.indexOf_cons_eq _ hzy]
        · rw [List.indexOf_cons_eq _ hzx, List.indexOf_cons_ne _ hzy,
            List.indexOf_cons_eq _ hzx, List.indexOf_cons_ne _ hzy]
          omega
      · by_cases hzy : z = y
        · rw [List.indexOf_cons_ne _ hzx, List.indexOf_cons_eq _ hzy,
            List.indexOf_cons_ne _ hzx, List.indexOf_cons_eq _ hzy]
          omega
        · have hx' : x ∈ zs := (List.mem_cons.mp hx).resolve_left (fun h => hzx h.symm)
          have hy' : y ∈ zs := (List.mem_cons.mp hy).resolve_left (fun h => hzy h.symm)
          have hxs' : x ∉ seen ++ [z] := by
            intro hc
            rcases List.mem_append.mp hc with h | h
            · exact hxs h
            · exact hzx (List.mem_singleton.mp h).symm
          have hys' : y ∉ seen ++ [z] := by
            intro hc
            rcases List.mem_append.mp hc with h | h
            · exact hys h
            · exact hzy (List.mem_singleton.mp h).symm
          rw [List.indexOf_cons_ne _ hzx, List.indexOf_cons_ne _ hzy,
            List.indexOf_cons_ne _ hzx, List.indexOf_cons_ne _ hzy,
            Nat.succ_lt_succ_iff, Nat.succ_lt_succ_iff]
          exact ih (seen ++ [z]) hx' hy' hxs' hys'

theorem arrayIndexOf_of_mem {α : Type} [DecidableEq α] (array : List α) (x : α)
    (h : x ∈ array) : arrayIndexOf array x = ((List.indexOf x array : Nat) : Int) := by
  unfold arrayIndexOf
  rw [if_pos h]

/-- C9. When every result entry has an anchor, `_initLinks` returns and the link list it
stores is the sequence of the entries' anchors with every occurrence after the first
removed: it has exactly the anchors of the entries as members, and one link comes before
another exactly when its first occurrence in entry order does (`arrayIndexOf` is the first
index). -/
theorem initLinks_first_occurrences (dom : Dom) (s : State)
    (hwf : ∀ r, r ∈ s._results → (dom.anchor r).isSome = true) :
    ∃ t, _initLinks dom s = .normal t ∧
      t._links = firstOccurrences (s._results.map dom.anchor) ∧
      (∀ x, x ∈ t._links ↔ x ∈ s._results.map dom.anchor) ∧
      (∀ x y, x ∈ t._links → y ∈ t._links →
        (arrayIndexOf t._links x < arrayIndexOf t._links y ↔
          arrayIndexOf (s._results.map dom.anchor) x <
            arrayIndexOf (s._results.map dom.anchor) y)) := by
  obtain ⟨t, ht, hl⟩ := _initLinks_normal dom s hwf
  refine ⟨t, ht, hl, ?_, ?_⟩
  · intro x
    rw [hl]
    exact mem_firstOccurrences _ x
  · intro x y hx hy
    rw [hl] at hx hy ⊢
    have hx' := (mem_firstOccurrences _ x).mp hx
    have hy' := (mem_firstOccurrences _ y).mp hy
    rw [arrayIndexOf_of_mem _ x hx, arrayIndexOf_of_mem _ y hy, arrayIndexOf_of_mem _ x hx',
      arrayIndexOf_of_mem _ y hy', Nat.cast_lt, Nat.cast_lt]
    exact keepFirst_indexOf_lt [] _ x y hx' hy' (List.not_mem_nil x) (List.not_mem_nil y)

/-- C9 on four entries whose anchors are 12, 22, 12, 32 in entry order: the list is
12, 22, 32. -/
theorem initLinks_first_occurrences_witness :
    (∀ r, r ∈ (_fillListeners (constructor [10, 20, 10, 30] 1 0 [] []))._results →
      (page3.anchor r).isSome = true) ∧
    (_initLinks page3 (_fillListeners (constructor [10, 20, 10, 30] 1 0 [] []))).state._links =
      [some 12, some 22, some 32] ∧
    ∃ t, _initLinks page3 (_fillListeners (constructor [10, 20, 10, 30] 1 0 [] [])) =
        .normal t ∧
      t._links = firstOccurrences
        ((_fillListeners (constructor [10, 20, 10, 30] 1 0 [] []))._results.map page3.anchor) ∧
      (∀ x, x ∈ t._links ↔
        x ∈ (_fillListeners (constructor [10, 20, 10, 30] 1 0 [] []))._results.map
          page3.anchor) ∧
      (∀ x y, x ∈ t._links → y ∈ t._links →
        (arrayIndexOf t._links x < arrayIndexOf t._links y ↔
          arrayIndexOf
              ((_fillListeners (constructor [10, 20, 10, 30] 1 0 [] []))._results.map
                page3.anchor) x <
            arrayIndexOf
              ((_fillListeners (constructor [10, 20, 10, 30] 1 0 [] []))._results.map
                page3.anchor) y)) :=
  ⟨by decide, by decide,
    initLinks_first_occurrences page3 (_fillListeners (constructor [10, 20, 10, 30] 1 0 [] []))
      (by decide)⟩

/-! ## `init()` focuses the first link -/

theorem moveFocus_activeElement (e : Elem) (s : State) :
    (moveFocus e s).activeElement = e := by
  unfold moveFocus
  split
  · assumption
  · rfl

theorem focus_activeElement (dom : Dom) (e : Elem) (s : State)
    (h : dom.focusable e = true) : (focus dom e s).activeElement = e := by
  rw [focus_of_focusable dom e s h]
  exact moveFocus_activeElement e s

theorem firstOccurrences_cons_head {α : Type} [DecidableEq α] (x : α) (xs : List α) :
    ∃ rest, firstOccurrences (x :: xs) = x :: rest := by
  unfold firstOccurrences
  rw [keepFirst, if_neg (List.not_mem_nil x)]
  exact ⟨_, rfl⟩

/-- C10, as the code has it. On a fresh controller whose container has a first entry `r0`,
every entry having an anchor and the first anchor `l0` being focusable and having the
entry wrapper `w0` two levels up, `init()` returns with the active index 0, `l0` as the
first link of the list and as the focused element, `w0` stored as the active element, and
`w0` carrying `active`. -/
theorem init_focuses_first_link (dom : Dom) (r0 : Elem) (rs : List Elem)
    (searchForm activeElement : Elem) (activeClass linkClass : List Elem) (l0 w0 : Elem)
    (hwf : ∀ r, r ∈ r0 :: rs → (dom.anchor r).isSome = true)
    (hl0 : dom.anchor r0 = some l0) (hw0 : wrapper dom l0 = some w0)
    (hf0 : dom.focusable l0 = true) :
    ∃ t, init dom (constructor (r0 :: rs) searchForm activeElement activeClass linkClass) =
        .normal t ∧
      t._indexActiveLink = 0 ∧ arrayGet t._links 0 = some l0 ∧ t.activeElement = l0 ∧
      t._activeElement = some w0 ∧ w0 ∈ t.activeClass := by
  generalize hc : constructor (r0 :: rs) searchForm activeElement activeClass linkClass = c
  have hres : (_fillListeners c)._results = r0 :: rs := by rw [← hc]; rfl
  obtain ⟨t1, ht1, hlinks⟩ := _initLinks_normal dom (_fillListeners c)
    (by rw [hres]; exact hwf)
  rw [hres, List.map_cons, hl0] at hlinks
  obtain ⟨rest, hrest⟩ := firstOccurrences_cons_head (some l0) (rs.map dom.anchor)
  rw [hrest] at hlinks
  have hget : arrayGet t1._links 0 = some l0 := by
    rw [hlinks]
    simp [arrayGet]
  obtain ⟨p, hp, hpw⟩ := wrapper_eq_some dom l0 w0 hw0
  have hinit : init dom c =
      _focus dom (some l0) (_setListeners .document t1._documentListeners t1) := by
    unfold init
    rw [ht1]
    simp only [Completion.andThen]
    rw [hget]
  have hidx := init_index dom c
  rw [hinit, _focus_ok dom l0 p w0 _ hp hpw] at hidx ⊢
  refine ⟨_, rfl, ?_, ?_, ?_, rfl, ?_⟩
  · rw [state_normal] at hidx
    rw [hidx, ← hc]
    rfl
  · change arrayGet (focus dom l0
      (_setListeners .document t1._documentListeners t1))._links 0 = _
    rw [(focus_focusFrame dom l0 _).1.2.2.2.2.1, (_setListeners_grows _ _ t1).1.2.2.1]
    exact hget
  · exact focus_activeElement dom l0 _ hf0
  · exact (mem_classListAdd _ _ _).mpr (Or.inr rfl)

/-- C10 as stated fails on the three-link page whose first link 12 is an anchor without
`href`: every entry has an anchor with a two-level ancestor and `init()` returns with
entry 10 stored and marked `active`, but the focused element is still the body (element
0), not the first link. -/
theorem init_focuses_first_link_counterexample :
    ((∀ r, r ∈ [10, 20, 30] → ((page3With [12]).anchor r).isSome = true) ∧
      (page3With [12]).anchor 10 = some 12 ∧ wrapper (page3With [12]) 12 = some 10) ∧
    ((init (page3With [12]) ctl3).isNormal = true ∧
      arrayGet (init (page3With [12]) ctl3).state._links 0 = some 12 ∧
      (init (page3With [12]) ctl3).state._activeElement = some 10 ∧
      (init (page3With [12]) ctl3).state.activeElement = 0 ∧
      (init (page3With [12]) ctl3).state.activeElement ≠ 12) := by
  decide

/-- C10 (amended) on the three-link page: link 12 of entry 10 is focused and entry 10 is
active. -/
theorem init_focuses_first_link_witness :
    ((∀ r, r ∈ [10, 20, 30] → (page3.anchor r).isSome = true) ∧
      page3.anchor 10 = some 12 ∧ wrapper page3 12 = some 10 ∧ page3.focusable 12 = true) ∧
    ∃ t, init page3 (constructor (10 :: [20, 30]) 1 0 [] []) = .normal t ∧
      t._indexActiveLink = 0 ∧ arrayGet t._links 0 = some 12 ∧ t.activeElement = 12 ∧
      t._activeElement = some 10 ∧ 10 ∈ t.activeClass :=
  ⟨⟨by decide, by decide, by decide, by decide⟩,
    init_focuses_first_link page3 10 [20, 30] 1 0 [] [] 12 10 (by decide) (by decide)
      (by decide) (by decide)⟩

/-! ## `init()` on an empty result set -/

theorem init_cons_normal (dom : Dom) (r0 : Elem) (rs : List Elem)
    (searchForm activeElement : Elem) (activeClass linkClass : List Elem)
    (hwf : ∀ r, r ∈ r0 :: rs → ∃ l w, dom.anchor r = some l ∧ wrapper dom l = some w) :
    ∃ t l0, init dom (constructor (r0 :: rs) searchForm activeElement activeClass linkClass) =
      .normal t ∧ arrayGet t._links 0 = some l0 := by
  obtain ⟨l0, w0, hl0, hw0⟩ := hwf r0 (List.mem_cons_self _ _)
  generalize hc : constructor (r0 :: rs) searchForm activeElement activeClass linkClass = c
  have hres : (_fillListeners c)._results = r0 :: rs := by rw [← hc]; rfl
  obtain ⟨t1, ht1, hlinks⟩ := _initLinks_normal dom (_fillListeners c) (by
    rw [hres]
    intro r hr
    obtain ⟨l, -, hl, -⟩ := hwf r hr
    rw [hl]
    rfl)
  rw [hres, List.map_cons, hl0] at hlinks
  obtain ⟨rest, hrest⟩ := firstOccurrences_cons_head (some l0) (rs.map dom.anchor)
  rw [hrest] at hlinks
  have hget : arrayGet t1._links 0 = some l0 := by
    rw [hlinks]
    simp [arrayGet]
  obtain ⟨p, hp, hpw⟩ := wrapper_eq_some dom l0 w0 hw0
  have hinit : init dom c =
      _focus dom (some l0) (_setListeners .document t1._documentListeners t1) := by
    unfold init
    rw [ht1]
    simp only [Completion.andThen]
    rw [hget]
  rw [_focus_ok dom l0 p w0 _ hp hpw] at hinit
  refine ⟨_, l0, hinit, ?_⟩
  · change arrayGet (focus dom l0
      (_setListeners .document t1._documentListeners t1))._links 0 = _
    rw [(focus_focusFrame dom l0 _).1.2.2.2.2.1, (_setListeners_grows _ _ t1).1.2.2.1]
    exact hget

theorem init_nil (dom : Dom) (searchForm activeElement : Elem)
    (activeClass linkClass : List Elem) :
    (init dom (constructor [] searchForm activeElement activeClass linkClass)).isNormal =
        false ∧
      (init dom (constructor [] searchForm activeElement activeClass linkClass)).state._links =
        [] := by
  constructor <;> rfl

/-- C11. On a fresh controller over well-formed markup (every entry has an anchor with a
two-level ancestor), `init()` throws exactly when the link list it built is empty, which
is exactly when there is no result entry; with no entries `init()` throws (the call
`_focus(this._links[0])` gets `undefined`), whatever the markup. -/
theorem init_faults_iff_no_links (dom : Dom) (results : List Elem)
    (searchForm activeElement : Elem) (activeClass linkClass : List Elem)
    (hwf : ∀ r, r ∈ results → ∃ l w, dom.anchor r = some l ∧ wrapper dom l = some w) :
    ((init dom (constructor results searchForm activeElement activeClass
          linkClass)).isNormal = false ↔
        (init dom (constructor results searchForm activeElement activeClass
          linkClass)).state._links = []) ∧
      ((init dom (constructor results searchForm activeElement activeClass
          linkClass)).state._links = [] ↔ results = []) ∧
      (init dom (constructor [] searchForm activeElement activeClass linkClass)).isNormal =
        false := by
  refine ⟨?_, ?_, (init_nil dom searchForm activeElement activeClass linkClass).1⟩
  · cases results with
    | nil =>
      obtain ⟨h1, h2⟩ := init_nil dom searchForm activeElement activeClass linkClass
      exact ⟨fun _ => h2, fun _ => h1⟩
    | cons r0 rs =>
      obtain ⟨t, l0, ht, hget⟩ :=
        init_cons_normal dom r0 rs searchForm activeElement activeClass linkClass hwf
      rw [ht]
      constructor
      · intro h
        cases h
      · intro h
        rw [state_normal] at h
        rw [h] at hget
        cases hget
  · cases results with
    | nil =>
      exact ⟨fun _ => rfl,
        fun _ => (init_nil dom searchForm activeElement activeClass linkClass).2⟩
    | cons r0 rs =>
      obtain ⟨t, l0, ht, hget⟩ :=
        init_cons_normal dom r0 rs searchForm activeElement activeClass linkClass hwf
      rw [ht]
      constructor
      · intro h
        rw [state_normal] at h
        rw [h] at hget
        cases hget
      · intro h
        cases h

/-- C11 on the three-link page: `init()` returns and the link list is not empty. -/
theorem init_faults_iff_no_links_witness :
    (∀ r, r ∈ [10, 20, 30] → ∃ l w, page3.anchor r = some l ∧ wrapper page3 l = some w) ∧
    ((init page3 (constructor [10, 20, 30] 1 0 [] [])).isNormal = false ↔
      (init page3 (constructor [10, 20, 30] 1 0 [] [])).state._links = []) :=
  ⟨fun r hr => ⟨r + 2, r, by
      simp only [List.mem_cons, List.mem_singleton, List.not_mem_nil, or_false] at hr
      rcases hr with h | h | h <;> subst h <;> exact ⟨by decide, by decide⟩⟩,
    (init_faults_iff_no_links page3 [10, 20, 30] 1 0 [] [] (fun r hr => ⟨r + 2, r, by
      simp only [List.mem_cons, List.mem_singleton, List.not_mem_nil, or_false] at hr
      rcases hr with h | h | h <;> subst h <;> exact ⟨by decide, by decide⟩⟩)).1⟩

/-! ## The shift flag -/

theorem _up_shift (dom : Dom) (s : State) :
    (_up dom s).state._isShiftPressed = s._isShiftPressed := by
  unfold _up
  rw [(_focus_focusFrame dom _ _).2.2]
  split <;> rfl

theorem _down_shift (dom : Dom) (s : State) :
    (_down dom s).state._isShiftPressed = s._isShiftPressed := by
  unfold _down
  rw [(_focus_focusFrame dom _ _).2.2]
  split <;> rfl

/-- What a keydown does to the shift flag: only an ungated Shift sets it. -/
theorem _keydown_shift_flag (kc : KeyCodeTable) (dom : Dom) (evt : KeyboardEvent) (s : State)
    (hk : kc.Distinct) :
    (_keydown kc dom evt s).state.1._isShiftPressed =
      if evt.keyCode = kc.SHIFT ∧ s.activeElement ≠ s._searchForm then some true
      else s._isShiftPressed := by
  by_cases hg : s.activeElement = s._searchForm
  · rw [_keydown_gated kc dom evt s hg, if_neg (fun h => h.2 hg)]
    rfl
  · by_cases h5 : evt.keyCode = kc.SHIFT
    · rw [_keydown_shift kc dom evt s hk hg h5, if_pos ⟨h5, hg⟩]
      rfl
    · rw [if_neg (fun h => h5 h.1)]
      by_cases h1 : evt.keyCode = kc.UP
      · rw [_keydown_up kc dom evt s hk hg h1, withEvent_state]
        exact _up_shift dom s
      · by_cases h3 : evt.keyCode = kc.DOWN
        · rw [_keydown_down kc dom evt s hk hg h3, withEvent_state]
          exact _down_shift dom s
        · by_cases h4 : evt.keyCode = kc.TAB
          · rw [_keydown_tab kc dom evt s hk hg h4]
            split
            · rw [withEvent_state]; exact _up_shift dom s
            · rw [withEvent_state]; exact _down_shift dom s
          · by_cases h2 : evt.keyCode = kc.RIGHT
            · rw [_keydown_right kc dom evt s hk hg h2]
              split <;> rfl
            · rw [_keydown_other kc dom evt s h1 h2 h3 h4 h5]
              rfl

/-- The shift flag after one event, the listeners of one `init()` being in place. -/
theorem step_shift_flag (kc : KeyCodeTable) (dom : Dom) (ev : Event) (s : State)
    (hk : kc.Distinct) (hd : DocListens s) :
    (step kc dom ev s)._isShiftPressed =
      if ev = .keydown kc.SHIFT ∧ s.activeElement ≠ s._searchForm then some true
      else if ev = .keyup kc.SHIFT then some false
      else s._isShiftPressed := by
  cases ev with
  | keydown k =>
    simp only [step]
    rw [dispatchKey_keydown kc dom k s hd, _keydown_shift_flag kc dom _ s hk]
    simp
  | keyup k =>
    simp only [step]
    rw [dispatchKey_keyup kc dom k s hd]
    simp only [_keyup]
    by_cases h : k = kc.SHIFT
    · simp [h]
    · simp [h]
  | blur e =>
    simp only [step]
    rw [(dispatchBlur_focusFrame e s).2.2]
    simp
  | focusMove e =>
    simp only [step]
    rw [(moveFocus_focusFrame e s).2.2]
    simp

theorem step_docListens (kc : KeyCodeTable) (dom : Dom) (ev : Event) (s : State)
    (hd : DocListens s) : DocListens (step kc dom ev s) :=
  docListens_of_frame (step_frame kc dom s ev s (frame_refl s)) hd

theorem run_docListens (kc : KeyCodeTable) (dom : Dom) (evs : List Event) (s : State)
    (hd : DocListens s) : DocListens (run kc dom evs s) :=
  docListens_of_frame (run_frame kc dom evs s) hd

theorem run_append_singleton (kc : KeyCodeTable) (dom : Dom) (evs : List Event) (ev : Event)
    (s : State) : run kc dom (evs ++ [ev]) s = step kc dom ev (run kc dom evs s) := by
  simp [run, List.foldl_append]

/-- After an `init()` that returned, the document carries the key listeners and the shift
flag is still unset. -/
theorem init_normal_ready (dom : Dom) (results : List Elem) (searchForm activeElement : Elem)
    (activeClass linkClass : List Elem) (s0 : State)
    (h : init dom (constructor results searchForm activeElement activeClass linkClass) =
      .normal s0) :
    DocListens s0 ∧ s0._isShiftPressed = none := by
  have h1 := init_docListens dom results searchForm activeElement activeClass linkClass
  rw [h, state_normal] at h1
  have hs : (init dom (constructor results searchForm activeElement activeClass
      linkClass)).state._isShiftPressed = none := by
    unfold init
    refine andThen_state_ind (fun t : State => t._isShiftPressed = none) _ _ ?_ ?_
    · show (_initLinks dom (_fillListeners _)).state._isShiftPressed = none
      rw [(setupFrame_trans (_fillListeners_setupFrame _)
        (_initLinks_setupFrame dom _)).2.2.2.1]
      rfl
    · intro t ht
      show (_focus dom _ _).state._isShiftPressed = none
      rw [(_focus_focusFrame dom _ _).2.2, (_setListeners_setupFrame _ _ t).2.2.2.1, ht]
  rw [h, state_normal] at hs
  refine ⟨?_, hs⟩
  rcases h1 with h1 | h1
  · exact h1
  · exfalso
    have hl := h1.2.2.1
    unfold init at h
    cases hi : _initLinks dom (_fillListeners (constructor results searchForm activeElement
        activeClass linkClass)) with
    | thrown t => rw [hi] at h; cases h
    | normal t =>
      rw [hi] at h
      simp only [Completion.andThen] at h
      have hf := (_focus_focusFrame dom (arrayGet t._links 0)
        (_setListeners .document t._documentListeners t)).1.2.2.2.2.1
      rw [h, state_normal, (_setListeners_grows _ _ t).1.2.2.1] at hf
      rw [hl] at hf
      rw [← hf] at h
      cases h

theorem append_singleton_eq_append_cons {α : Type} (evs pre post : List α) (ev x : α)
    (h : evs ++ [ev] = pre ++ x :: post) :
    (post = [] ∧ pre = evs ∧ x = ev) ∨
      ∃ post', post = post' ++ [ev] ∧ evs = pre ++ x :: post' := by
  rcases List.eq_nil_or_concat post with hp | ⟨post', a, hp⟩
  · subst hp
    obtain ⟨h1, h2⟩ := List.append_inj' h rfl
    exact Or.inl ⟨rfl, h1.symm, (List.singleton_inj.mp h2).symm⟩
  · rw [List.concat_eq_append] at hp
    subst hp
    have h' : evs ++ [ev] = (pre ++ x :: post') ++ [a] := by
      rw [h]; simp
    obtain ⟨h1, h2⟩ := List.append_inj' h' rfl
    have ha : ev = a := List.singleton_inj.mp h2
    subst ha
    exact Or.inr ⟨post', rfl, h1⟩

/-- C12, as the code has it. After an `init()` that returned, with pairwise different key
codes, and for every sequence of events: the shift flag is `true` exactly when some Shift
keydown that arrived while the search input was not focused has no Shift keyup after it
(the SHIFT branch of `_keydown` sits inside the search-field gate, `_keyup` has no
gate). -/
theorem shift_flag_tracks_ungated_shift (kc : KeyCodeTable) (dom : Dom) (results : List Elem)
    (searchForm activeElement : Elem) (activeClass linkClass : List Elem) (s0 : State)
    (evs : List Event) (hk : kc.Distinct)
    (hinit : init dom (constructor results searchForm activeElement activeClass linkClass) =
      .normal s0) :
    (run kc dom evs s0)._isShiftPressed = some true ↔ UngatedShiftDownSince kc dom s0 evs := by
  obtain ⟨hd0, hs0⟩ :=
    init_normal_ready dom results searchForm activeElement activeClass linkClass s0 hinit
  induction evs using List.reverseRecOn with
  | nil =>
    constructor
    · intro h
      rw [show run kc dom [] s0 = s0 from rfl, hs0] at h
      cases h
    · rintro ⟨pre, post, h, -⟩
      cases pre <;> cases h
  | append_singleton evs ev ih =>
    rw [run_append_singleton, step_shift_flag kc dom ev _ hk (run_docListens kc dom evs s0 hd0)]
    by_cases hA : ev = .keydown kc.SHIFT ∧
        (run kc dom evs s0).activeElement ≠ (run kc dom evs s0)._searchForm
    · rw [if_pos hA]
      refine ⟨fun _ => ⟨evs, [], ?_, hA.2, List.not_mem_nil _⟩, fun _ => rfl⟩
      rw [hA.1]
    · rw [if_neg hA]
      by_cases hB : ev = .keyup kc.SHIFT
      · rw [if_pos hB]
        constructor
        · intro h
          cases h
        · rintro ⟨pre, post, h, -, hpost⟩
          exfalso
          rcases append_singleton_eq_append_cons evs pre post ev _ h with
            ⟨-, -, h3⟩ | ⟨post', h1, -⟩
          · rw [hB] at h3
            cases h3
          · apply hpost
            rw [h1, hB]
            simp
      · rw [if_neg hB, ih]
        constructor
        · rintro ⟨pre, post, h, hg, hpost⟩
          refine ⟨pre, post ++ [ev], by rw [h]; simp, hg, ?_⟩
          intro hc
          rcases List.mem_append.mp hc with h' | h'
          · exact hpost h'
          · exact hB (List.mem_singleton.mp h').symm
        · rintro ⟨pre, post, h, hg, hpost⟩
          rcases append_singleton_eq_append_cons evs pre post ev _ h with
            ⟨-, h2, h3⟩ | ⟨post', h1, h2⟩
          · exfalso
            apply hA
            rw [h2] at hg
            exact ⟨h3.symm, hg⟩
          · refine ⟨pre, post', h2, hg, ?_⟩
            intro hc
            apply hpost
            rw [h1]
            exact List.mem_append_left _ hc

/-- C12 as stated fails on the three-link page: after a click into the search input
(element 1) and a Shift keydown, the last Shift event is a keydown with no keyup since,
yet the flag is not `true`. -/
theorem shift_flag_counterexample :
    (init page3 ctl3).isNormal = true ∧
    ¬ ((run domKeyCodes page3 [.focusMove 1, .keydown 16]
          (init page3 ctl3).state)._isShiftPressed = some true ↔
        ShiftDownSince domKeyCodes [.focusMove 1, .keydown 16]) := by
  refine ⟨by decide, ?_⟩
  intro h
  have h1 : ShiftDownSince domKeyCodes [.focusMove 1, .keydown 16] :=
    ⟨[.focusMove 1], [], rfl, List.not_mem_nil _⟩
  have h2 := h.mpr h1
  revert h2
  decide

/-- C12 (amended) on the three-link page: one Shift keydown with a link focused. -/
theorem shift_flag_tracks_ungated_shift_witness :
    (domKeyCodes.Distinct ∧
      init page3 (constructor [10, 20, 30] 1 0 [] []) = .normal (init page3 ctl3).state) ∧
    ((run domKeyCodes page3 [.keydown 16] (init page3 ctl3).state)._isShiftPressed =
        some true ↔
      UngatedShiftDownSince domKeyCodes page3 (init page3 ctl3).state [.keydown 16]) :=
  ⟨⟨by decide, by decide⟩,
    shift_flag_tracks_ungated_shift domKeyCodes page3 [10, 20, 30] 1 0 [] []
      (init page3 ctl3).state [.keydown 16] (by decide) (by decide)⟩

/-! ## Default suppression -/

/-- C13. With the listeners of one `init()` in place, pairwise different key codes and the
search input not focused: a keydown of Up, Down or Tab is always default-prevented (also
when `_up` or `_down` clamps, or throws), a keydown of Shift or of any key other than Up,
Down, Tab and Right never is. On the three-link page Up at index 0 and Down at index 2 are
prevented. -/
theorem default_suppression_table (kc : KeyCodeTable) (dom : Dom) (s : State)
    (hk : kc.Distinct) (hd : DocListens s) (hgate : s.activeElement ≠ s._searchForm) :
    ((dispatchKey kc dom .keydown kc.UP s).2.defaultPrevented = true ∧
      (dispatchKey kc dom .keydown kc.DOWN s).2.defaultPrevented = true ∧
      (dispatchKey kc dom .keydown kc.TAB s).2.defaultPrevented = true ∧
      (dispatchKey kc dom .keydown kc.SHIFT s).2.defaultPrevented = false ∧
      ∀ k, k ≠ kc.UP → k ≠ kc.DOWN → k ≠ kc.TAB → k ≠ kc.RIGHT →
        (dispatchKey kc dom .keydown k s).2.defaultPrevented = false) ∧
    ((init page3 ctl3).state._indexActiveLink = 0 ∧
      (dispatchKey domKeyCodes page3 .keydown 38
        (init page3 ctl3).state).2.defaultPrevented = true ∧
      (run domKeyCodes page3 [.keydown 40, .keydown 40]
        (init page3 ctl3).state)._indexActiveLink = 2 ∧
      (dispatchKey domKeyCodes page3 .keydown 40
        (run domKeyCodes page3 [.keydown 40, .keydown 40]
          (init page3 ctl3).state)).2.defaultPrevented = true) := by
  refine ⟨⟨?_, ?_, ?_, ?_, ?_⟩, by decide⟩
  · rw [dispatchKey_keydown kc dom _ s hd, _keydown_up kc dom _ s hk hgate rfl,
      withEvent_state]
    rfl
  · rw [dispatchKey_keydown kc dom _ s hd, _keydown_down kc dom _ s hk hgate rfl,
      withEvent_state]
    rfl
  · rw [dispatchKey_keydown kc dom _ s hd, _keydown_tab kc dom _ s hk hgate rfl]
    split <;> (rw [withEvent_state]; rfl)
  · rw [dispatchKey_keydown kc dom _ s hd, _keydown_shift kc dom _ s hk hgate rfl]
    rfl
  · intro k h1 h3 h4 h2
    rw [dispatchKey_keydown kc dom _ s hd]
    by_cases h5 : k = kc.SHIFT
    · rw [_keydown_shift kc dom _ s hk hgate h5]
      rfl
    · rw [_keydown_other kc dom _ s h1 h2 h3 h4 h5]
      rfl

/-- C13 on the three-link page right after `init()`. -/
theorem default_suppression_table_witness :
    (domKeyCodes.Distinct ∧ DocListens (init page3 ctl3).state ∧
      (init page3 ctl3).state.activeElement ≠ (init page3 ctl3).state._searchForm) ∧
    (dispatchKey domKeyCodes page3 .keydown domKeyCodes.TAB
      (init page3 ctl3).state).2.defaultPrevented = true :=
  ⟨⟨by decide, ⟨by decide, by decide⟩, by decide⟩,
    (default_suppression_table domKeyCodes page3 (init page3 ctl3).state (by decide)
      ⟨by decide, by decide⟩ (by decide)).1.2.2.1⟩

/-! ## Blur handling -/

/-- C14. In a reachable state with an active element `w` stored, a blur event on any link
of the list runs `_blur` to its end: `w` loses `active` (no other element's `active`
changes), the stored active element becomes none, the any-link-focused flag becomes
`false`, and index, link list and shift flag stay as they are. -/
theorem blur_clears_active (kc : KeyCodeTable) (dom : Dom) (s : State) (l w : Elem)
    (hr : Reachable kc dom s) (hl : some l ∈ s._links) (hact : s._activeElement = some w) :
    _blur s = .normal (step kc dom (.blur l) s) ∧
    w ∉ (step kc dom (.blur l) s).activeClass ∧
    (∀ e, e ≠ w → (e ∈ (step kc dom (.blur l) s).activeClass ↔ e ∈ s.activeClass)) ∧
    (step kc dom (.blur l) s)._activeElement = none ∧
    (step kc dom (.blur l) s)._isAnyLinkFocused = false ∧
    (step kc dom (.blur l) s)._indexActiveLink = s._indexActiveLink ∧
    (step kc dom (.blur l) s)._links = s._links ∧
    (step kc dom (.blur l) s)._isShiftPressed = s._isShiftPressed := by
  have hll := (reachable_listens kc dom s hr).1
  have hstep : step kc dom (.blur l) s =
      { s with _isAnyLinkFocused := false,
               activeClass := classListRemove w s.activeClass,
               _activeElement := none } := by
    simp only [step]
    rw [dispatchBlur_eq, if_pos (hll l hl), _blur_some s w hact]
    rfl
  rw [hstep]
  refine ⟨_blur_some s w hact, ?_, ?_, rfl, rfl, rfl, rfl, rfl⟩
  · intro hc
    exact ((mem_classListRemove _ _ _).mp hc).2 rfl
  · intro e he
    constructor
    · intro h
      exact ((mem_classListRemove _ _ _).mp h).1
    · intro h
      exact (mem_classListRemove _ _ _).mpr ⟨h, he⟩

/-- C14 on the three-link page right after `init()`: a blur on link 22 clears entry 10. -/
theorem blur_clears_active_witness :
    (Reachable domKeyCodes page3 (init page3 ctl3).state ∧
      some 22 ∈ (init page3 ctl3).state._links ∧
      (init page3 ctl3).state._activeElement = some 10) ∧
    10 ∉ (step domKeyCodes page3 (.blur 22) (init page3 ctl3).state).activeClass ∧
    (step domKeyCodes page3 (.blur 22) (init page3 ctl3).state)._activeElement = none :=
  ⟨⟨⟨[10, 20, 30], 1, 0, [], [], [], rfl⟩, by decide, by decide⟩,
    (blur_clears_active domKeyCodes page3 (init page3 ctl3).state 22 10
      ⟨[10, 20, 30], 1, 0, [], [], [], rfl⟩ (by decide) (by decide)).2.1,
    (blur_clears_active domKeyCodes page3 (init page3 ctl3).state 22 10
      ⟨[10, 20, 30], 1, 0, [], [], [], rfl⟩ (by decide) (by decide)).2.2.2.1⟩

/-! ## A second `init()` -/

theorem addEventListener_of_mem (t : Target) (l : Listener) (ls : List (Target × Listener))
    (h : (t, l) ∈ ls) : addEventListener t l ls = ls := by
  unfold addEventListener
  rw [if_pos h]

theorem _setLinkLoop_listeners_of_mem (link : Option Elem) (ls : List Listener) (s : State)
    (h : ∀ e, link = some e → ∀ l, l ∈ ls → (Target.element e, l) ∈ s.listeners) :
    (_setLinkLoop link ls s).state.listeners = s.listeners ∧
      (_setLinkLoop link ls s).state._linkListeners = s._linkListeners := by
  induction ls generalizing s with
  | nil => exact ⟨rfl, rfl⟩
  | cons l ls ih =>
    cases link with
    | none => exact ⟨rfl, rfl⟩
    | some e =>
      rw [_setLinkLoop]
      have hl := h e rfl l (List.mem_cons_self _ _)
      rw [addEventListener_of_mem _ _ _ hl]
      exact ih _ (fun e' he' l' hl' => h e' he' l' (List.mem_cons_of_mem _ hl'))

theorem _initLinksMap_listeners_of_mem (dom : Dom) (rs : List Elem) (acc : List (Option Elem))
    (s : State)
    (h : ∀ r, r ∈ rs → ∀ e, dom.anchor r = some e → ∀ l, l ∈ s._linkListeners →
      (Target.element e, l) ∈ s.listeners) :
    (_initLinksMap dom rs acc s).state.2.listeners = s.listeners := by
  induction rs generalizing acc s with
  | nil => rfl
  | cons r rs ih =>
    rw [_initLinksMap]
    obtain ⟨h1, h2⟩ := _setLinkLoop_listeners_of_mem (dom.anchor r) s._linkListeners s
      (fun e he l hl => h r (List.mem_cons_self _ _) e he l hl)
    unfold _setLink
    cases hc : _setLinkLoop (dom.anchor r) s._linkListeners s with
    | thrown s1 => rw [hc] at h1; exact h1
    | normal s1 =>
      rw [hc] at h1 h2
      rw [state_normal] at h1 h2
      simp only
      rw [ih _ s1 (fun r' hr' e he l hl => by
        rw [h1]
        rw [h2] at hl
        exact h r' (List.mem_cons_of_mem _ hr') e he l hl)]
      exact h1

theorem _initLinks_listeners_of_mem (dom : Dom) (s : State)
    (h : ∀ r, r ∈ s._results → ∀ e, dom.anchor r = some e → ∀ l, l ∈ s._linkListeners →
      (Target.element e, l) ∈ s.listeners) :
    (_initLinks dom s).state.listeners = s.listeners := by
  have h1 := _initLinksMap_listeners_of_mem dom s._results [] s h
  unfold _initLinks
  cases hc : _initLinksMap dom s._results [] s with
  | thrown p => rw [hc] at h1; exact h1
  | normal p => rw [hc] at h1; exact h1

theorem _setListeners_listeners_of_mem (t : Target) (ls : List Listener) (s : State)
    (h : ∀ l, l ∈ ls → (t, l) ∈ s.listeners) :
    (_setListeners t ls s).listeners = s.listeners := by
  induction ls generalizing s with
  | nil => rfl
  | cons l ls ih =>
    rw [_setListeners, addEventListener_of_mem _ _ _ (h l (List.mem_cons_self _ _))]
    exact ih _ (fun l' hl' => h l' (List.mem_cons_of_mem _ hl'))

/-- On a state that carries the registrations of a first `init()`, `init()` registers
nothing new. -/
theorem init_listeners_of_registered (dom : Dom) (s : State) (h : Registered dom s) :
    (init dom s).state.listeners = s.listeners := by
  obtain ⟨h1, h2, h3, h4, h5⟩ := h
  have hfill : (_fillListeners s).listeners = s.listeners := rfl
  have hi : (_initLinks dom (_fillListeners s)).state.listeners = s.listeners := by
    refine _initLinks_listeners_of_mem dom (_fillListeners s) ?_
    intro r hr e he l hl
    have hl' : l = { eventName := .blur, callback := ._onLinkBlur } := by
      simp only [_fillListeners, _createListener, List.mem_append, List.mem_singleton] at hl
      rcases hl with hl | hl
      · exact h4 l hl
      · exact hl
    rw [hl']
    exact h1 r hr e he
  unfold init
  cases hc : _initLinks dom (_fillListeners s) with
  | thrown t => rw [hc] at hi; exact hi
  | normal t =>
    rw [hc, state_normal] at hi
    simp only [Completion.andThen]
    rw [(_focus_focusFrame dom _ _).1.2.2.2.2.2.2, _setListeners_listeners_of_mem, hi]
    intro l hl
    rw [hi]
    rw [(_initLinks_normal_frame dom _ t hc).1] at hl
    simp only [_fillListeners, _createListener, List.mem_append, List.mem_singleton] at hl
    rcases hl with (hl | hl) | hl
    · rcases h5 l hl with h | h
      · rw [h]; exact h2
      · rw [h]; exact h3
    · rw [hl]; exact h2
    · rw [hl]; exact h3

/-- After a first `init()` over entries that all have an anchor, the registrations are in
place and the listener arrays hold one record per callback. -/
theorem init_registered (dom : Dom) (results : List Elem) (searchForm activeElement : Elem)
    (activeClass linkClass : List Elem)
    (hwf : ∀ r, r ∈ results → (dom.anchor r).isSome = true) :
    Registered dom
      (init dom (constructor results searchForm activeElement activeClass linkClass)).state ∧
    (init dom (constructor results searchForm activeElement activeClass
      linkClass)).state._linkListeners = [{ eventName := .blur, callback := ._onLinkBlur }] ∧
    (init dom (constructor results searchForm activeElement activeClass
      linkClass)).state._documentListeners =
        [{ eventName := .keydown, callback := ._onDocumentKeydown },
         { eventName := .keyup, callback := ._onDocumentKeyup }] := by
  generalize hc : constructor results searchForm activeElement activeClass linkClass = c
  have hres : (_fillListeners c)._results = results := by rw [← hc]; rfl
  have hll : (_fillListeners c)._linkListeners =
      [{ eventName := .blur, callback := ._onLinkBlur }] := by rw [← hc]; rfl
  have hdl : (_fillListeners c)._documentListeners =
      [{ eventName := .keydown, callback := ._onDocumentKeydown },
       { eventName := .keyup, callback := ._onDocumentKeyup }] := by rw [← hc]; rfl
  obtain ⟨t1, ht1, hlinks⟩ := _initLinks_normal dom (_fillListeners c) (by rw [hres]; exact hwf)
  obtain ⟨-, hreg⟩ := _initLinks_spec dom (_fillListeners c)
  obtain ⟨hdoc1, hlink1⟩ := _initLinks_normal_frame dom _ t1 ht1
  have hres1 : t1._results = results := by
    have := (_initLinks_setupFrame dom (_fillListeners c)).2.1
    rw [ht1, state_normal] at this
    rw [this, hres]
  obtain ⟨hg, hall⟩ := _setListeners_grows .document t1._documentListeners t1
  have hsf := _setListeners_setupFrame .document t1._documentListeners t1
  have hinit : (init dom c).state =
      (_focus dom (arrayGet t1._links 0)
        (_setListeners .document t1._documentListeners t1)).state := by
    unfold init
    rw [ht1]
    rfl
  have hf := (_focus_focusFrame dom (arrayGet t1._links 0)
    (_setListeners .document t1._documentListeners t1)).1
  rw [← hinit] at hf
  obtain ⟨-, f2, f3, f4, -, -, f7⟩ := hf
  refine ⟨⟨?_, ?_, ?_, ?_, ?_⟩, ?_, ?_⟩
  · intro r hr e he
    rw [f7]
    apply hg.2.2.2
    refine hreg t1 ht1 e ?_ _ (by rw [hll]; exact List.mem_singleton.mpr rfl)
    rw [hlinks, mem_firstOccurrences, hres]
    rw [f2, hsf.2.1, hres1] at hr
    rw [← he]
    exact List.mem_map_of_mem _ hr
  · rw [f7]
    exact hall _ (by rw [hdoc1, hdl]; simp)
  · rw [f7]
    exact hall _ (by rw [hdoc1, hdl]; simp)
  · intro l hl
    rw [f3, hg.1, hlink1, hll] at hl
    exact List.mem_singleton.mp hl
  · intro l hl
    rw [f4, hg.2.1, hdoc1, hdl] at hl
    simpa using hl
  · rw [f3, hg.1, hlink1, hll]
  · rw [f4, hg.2.1, hdoc1, hdl]

theorem init_listener_arrays (dom : Dom) (s : State)
    (h : (init dom s).isNormal = true ∨ (_initLinks dom (_fillListeners s)).isNormal = true) :
    (init dom s).state._linkListeners =
        s._linkListeners ++ [{ eventName := .blur, callback := ._onLinkBlur }] ∧
      (init dom s).state._documentListeners =
        s._documentListeners ++ [{ eventName := .keydown, callback := ._onDocumentKeydown },
          { eventName := .keyup, callback := ._onDocumentKeyup }] := by
  have hn : ∃ t, _initLinks dom (_fillListeners s) = .normal t := by
    cases hc : _initLinks dom (_fillListeners s) with
    | normal t => exact ⟨t, rfl⟩
    | thrown t =>
      exfalso
      rcases h with h | h
      · unfold init at h
        rw [hc] at h
        cases h
      · rw [hc] at h
        cases h
  obtain ⟨t, ht⟩ := hn
  obtain ⟨hdoc, hlink⟩ := _initLinks_normal_frame dom _ t ht
  obtain ⟨hg, -⟩ := _setListeners_grows .document t._documentListeners t
  have hf := (_focus_focusFrame dom (arrayGet t._links 0)
    (_setListeners .document t._documentListeners t)).1
  have hinit : (init dom s).state =
      (_focus dom (arrayGet t._links 0)
        (_setListeners .document t._documentListeners t)).state := by
    unfold init
    rw [ht]
    rfl
  rw [← hinit] at hf
  obtain ⟨-, -, f3, f4, -, -, -⟩ := hf
  constructor
  · rw [f3, hg.1, hlink]
    rfl
  · rw [f4, hg.2.1, hdoc]
    simp [_fillListeners, _createListener]

theorem init_results (dom : Dom) (s : State) : (init dom s).state._results = s._results := by
  unfold init
  refine andThen_state_ind (fun t : State => t._results = s._results) _ _ ?_ ?_
  · show (_initLinks dom (_fillListeners s)).state._results = s._results
    rw [(setupFrame_trans (_fillListeners_setupFrame s) (_initLinks_setupFrame dom _)).2.1]
  · intro t ht
    show (_focus dom _ _).state._results = s._results
    rw [(_focus_focusFrame dom _ _).1.2.1, (_setListeners_setupFrame _ _ t).2.1, ht]

/-- C15, as the code has it. Let `s1` be the state after `init()` on a fresh controller
whose entries all have an anchor. A second `init()` pushes the three listener records
once more into the controller's arrays but registers nothing again: the callbacks are the
ones bound once in the constructor, and `addEventListener` ignores a listener already
registered with the same event name and callback. So a keydown still runs `_keydown`
exactly once; on the three-link page, index 0, one Down keydown after the second `init()`
leaves the index at 1. -/
theorem double_init_registers_once (kc : KeyCodeTable) (dom : Dom) (results : List Elem)
    (searchForm activeElement : Elem) (activeClass linkClass : List Elem) (s1 : State)
    (hwf : ∀ r, r ∈ results → (dom.anchor r).isSome = true)
    (hs1 : s1 = (init dom (constructor results searchForm activeElement activeClass
      linkClass)).state) :
    ((init dom s1).state._documentListeners = s1._documentListeners ++ s1._documentListeners ∧
      (init dom s1).state._linkListeners = s1._linkListeners ++ s1._linkListeners ∧
      (init dom s1).state.listeners = s1.listeners ∧
      ∀ k, dispatchKey kc dom .keydown k (init dom s1).state =
        (_keydown kc dom { keyCode := k, defaultPrevented := false } (init dom s1).state).state) ∧
    ((init page3 (init page3 ctl3).state).state._indexActiveLink = 0 ∧
      (init page3 (init page3 ctl3).state).state._links.length = 3 ∧
      (run domKeyCodes page3 [.keydown 40]
        (init page3 (init page3 ctl3).state).state)._indexActiveLink = 1) := by
  refine ⟨?_, by decide⟩
  obtain ⟨hreg, hll, hdl⟩ :=
    init_registered dom results searchForm activeElement activeClass linkClass hwf
  rw [← hs1] at hreg hll hdl
  have hres : (_fillListeners s1)._results = results := by
    rw [hs1]
    exact init_results dom _
  obtain ⟨t, ht, -⟩ := _initLinks_normal dom (_fillListeners s1) (by rw [hres]; exact hwf)
  obtain ⟨ha1, ha2⟩ := init_listener_arrays dom s1 (Or.inr (by rw [ht]; rfl))
  have hlis := init_listeners_of_registered dom s1 hreg
  have hd1 : DocListens s1 := by
    rcases init_docListens dom results searchForm activeElement activeClass linkClass with
      h | h
    · rw [hs1]; exact h
    · exfalso
      rw [← hs1] at h
      have := (mem_listenersOf Callback._onDocumentKeydown .document .keydown
        s1.listeners).mpr hreg.2.1
      rw [h.1] at this
      cases this
  have hd2 : DocListens (init dom s1).state := by
    unfold DocListens
    rw [hlis]
    exact hd1
  refine ⟨?_, ?_, hlis, fun k => dispatchKey_keydown kc dom k _ hd2⟩
  · rw [ha2, hdl]
  · rw [ha1, hll]

/-- C15 as stated fails on the three-link page: after two `init()` calls the document
still carries one keydown listener, and one Down keydown from index 0 leaves the index at
1, not 2. -/
theorem double_init_counterexample :
    (init page3 ctl3).isNormal = true ∧
    (init page3 (init page3 ctl3).state).isNormal = true ∧
    (init page3 (init page3 ctl3).state).state._indexActiveLink = 0 ∧
    listenersOf .document .keydown (init page3 (init page3 ctl3).state).state.listeners =
      [Callback._onDocumentKeydown] ∧
    (run domKeyCodes page3 [.keydown 40]
      (init page3 (init page3 ctl3).state).state)._indexActiveLink ≠ 2 := by
  decide

/-- C15 (amended) on the three-link page. -/
theorem double_init_registers_once_witness :
    ((∀ r, r ∈ [10, 20, 30] → (page3.anchor r).isSome = true) ∧
      (init page3 ctl3).state = (init page3 (constructor [10, 20, 30] 1 0 [] [])).state) ∧
    (init page3 (init page3 ctl3).state).state.listeners = (init page3 ctl3).state.listeners :=
  ⟨⟨by decide, rfl⟩,
    (double_init_registers_once domKeyCodes page3 [10, 20, 30] 1 0 [] []
      (init page3 ctl3).state (by decide) rfl).1.2.2.1⟩

/-! ## Index and active element stay in sync -/

theorem _focus_state_activeElement (dom : Dom) (l : Elem) (s : State) :
    (_focus dom (some l) s).state.activeElement = (focus dom l s).activeElement := by
  cases hp : dom.parentElement l with
  | none => rw [_focus_noParent dom l s hp]; rfl
  | some p =>
    cases hw : dom.parentElement p with
    | none => rw [_focus_noWrapper dom l p s hp hw]; rfl
    | some w => rw [_focus_ok dom l p w s hp hw]; rfl

/-- After `link.focus()` the focused element is the link, or the one focused before. -/
theorem focus_activeElement_cases (dom : Dom) (e : Elem) (s : State) :
    (focus dom e s).activeElement = e ∨ (focus dom e s).activeElement = s.activeElement := by
  unfold focus
  split
  · exact Or.inl (moveFocus_activeElement e s)
  · exact Or.inr rfl

theorem arrayGet_inBounds (array : List (Option Elem)) (i : Int)
    (hall : ∀ x, x ∈ array → x ≠ none) (h0 : 0 ≤ i) (h1 : i ≤ (array.length : Int) - 1) :
    ∃ l, arrayGet array i = some l := by
  have hlt : i.toNat < array.length := by omega
  cases hx : array[i.toNat] with
  | none => exact absurd hx (hall _ (List.getElem_mem _))
  | some l =>
    refine ⟨l, ?_⟩
    unfold arrayGet
    rw [if_pos h0, List.getElem?_eq_getElem hlt, hx]
    rfl

/-- Focusing the link found at the active index leaves the state in sync: the stored
element becomes that link's wrapper, or none. -/
theorem _focus_inSync (dom : Dom) (s : State) (l : Elem)
    (hl : arrayGet s._links s._indexActiveLink = some l)
    (hpar : dom.parentElement l ≠ none) :
    InSync dom (_focus dom (some l) s).state := by
  have hf := focus_focusFrame dom l s
  cases hp : dom.parentElement l with
  | none => exact absurd hp hpar
  | some p =>
    cases hw : dom.parentElement p with
    | none =>
      rw [_focus_noWrapper dom l p s hp hw]
      intro w hw'
      cases hw'
    | some w =>
      rw [_focus_ok dom l p w s hp hw]
      intro w' hw'
      refine ⟨l, ?_, ?_⟩
      · show arrayGet (focus dom l s)._links (focus dom l s)._indexActiveLink = some l
        rw [hf.1.2.2.2.2.1, hf.2.1]
        exact hl
      · rw [← hw']
        simp [wrapper, hp, hw]

theorem _up_inSync (dom : Dom) (s : State)
    (hall : ∀ x, x ∈ s._links → x ≠ none)
    (hpar : ∀ l, some l ∈ s._links → dom.parentElement l ≠ none) (hb : IndexInBounds s) :
    InSync dom (_up dom s).state := by
  have hb' := (_up_bounds dom s._links s ⟨rfl, hb⟩).2
  have hlinks := (_up_frame dom s).2.2.2.2.1
  have hidx := _up_index dom s
  obtain ⟨l, hl⟩ := arrayGet_inBounds (_up dom s).state._links (_up dom s).state._indexActiveLink
    (by rw [hlinks]; exact hall) hb'.1 hb'.2
  rw [hlinks, hidx] at hl
  unfold _up
  by_cases h0 : s._indexActiveLink = 0
  · simp only [h0, decide_True, Bool.not_true, Bool.false_eq_true, if_false]
    rw [if_pos h0] at hl
    rw [hl]
    exact _focus_inSync dom { s with _indexActiveLink := 0 } l hl
      (hpar l (arrayGet_mem _ _ l hl))
  · simp only [h0, decide_False, Bool.not_false, if_true]
    rw [if_neg h0] at hl
    rw [hl]
    exact _focus_inSync dom { s with _indexActiveLink := s._indexActiveLink - 1 } l hl
      (hpar l (arrayGet_mem _ _ l hl))

theorem _down_inSync (dom : Dom) (s : State)
    (hall : ∀ x, x ∈ s._links → x ≠ none)
    (hpar : ∀ l, some l ∈ s._links → dom.parentElement l ≠ none) (hb : IndexInBounds s) :
    InSync dom (_down dom s).state := by
  have hb' := (_down_bounds dom s._links s ⟨rfl, hb⟩).2
  have hlinks := (_down_frame dom s).2.2.2.2.1
  have hidx := _down_index dom s
  obtain ⟨l, hl⟩ := arrayGet_inBounds (_down dom s).state._links
    (_down dom s).state._indexActiveLink (by rw [hlinks]; exact hall) hb'.1 hb'.2
  rw [hlinks, hidx] at hl
  unfold _down
  by_cases h0 : s._indexActiveLink = (s._links.length : Int) - 1
  · simp only [h0, decide_True, Bool.not_true, Bool.false_eq_true, if_false]
    rw [if_pos h0] at hl
    rw [hl]
    exact _focus_inSync dom { s with _indexActiveLink := (s._links.length : Int) - 1 } l hl
      (hpar l (arrayGet_mem _ _ l hl))
  · simp only [h0, decide_False, Bool.not_false, if_true]
    rw [if_neg h0] at hl
    rw [hl]
    exact _focus_inSync dom { s with _indexActiveLink := s._indexActiveLink + 1 } l hl
      (hpar l (arrayGet_mem _ _ l hl))

theorem _initLinksMap_normal_anchors (dom : Dom) (rs : List Elem) (acc : List (Option Elem))
    (s : State) (hne : s._linkListeners ≠ []) (p : List (Option Elem) × State)
    (h : _initLinksMap dom rs acc s = .normal p) : ∀ r, r ∈ rs → dom.anchor r ≠ none := by
  induction rs generalizing acc s with
  | nil => intro r hr; cases hr
  | cons r rs ih =>
    rw [_initLinksMap] at h
    have hg := _setLink_grows (dom.anchor r) s
    cases hc : _setLink (dom.anchor r) s with
    | thrown s1 => rw [hc] at h; cases h
    | normal s1 =>
      rw [hc] at h hg
      rw [state_normal] at hg
      have hr0 : dom.anchor r ≠ none := by
        intro hn
        unfold _setLink at hc
        rw [hn, _setLinkLoop_none, if_neg hne] at hc
        cases hc
      have ih' := ih (acc ++ [dom.anchor r]) s1 (by rw [hg.1]; exact hne) h
      intro r' hr'
      rcases List.mem_cons.mp hr' with h' | h'
      · rw [h']; exact hr0
      · exact ih' r' h'

/-- After `init()` on a fresh controller the link list holds no null. -/
theorem init_links_nonnull (dom : Dom) (results : List Elem) (searchForm activeElement : Elem)
    (activeClass linkClass : List Elem) :
    ∀ x, x ∈ (init dom (constructor results searchForm activeElement activeClass
      linkClass)).state._links → x ≠ none := by
  generalize hc : constructor results searchForm activeElement activeClass linkClass = c
  have hne : (_fillListeners c)._linkListeners ≠ [] := by
    rw [← hc]; simp [_fillListeners, constructor]
  have hl0 : (_fillListeners c)._links = [] := by rw [← hc]; rfl
  unfold init
  cases hi : _initLinks dom (_fillListeners c) with
  | thrown t =>
    simp only [Completion.andThen, state_thrown]
    rw [_initLinks_thrown_links dom _ t hi, hl0]
    intro x hx
    cases hx
  | normal t =>
    simp only [Completion.andThen]
    rw [(_focus_focusFrame dom _ _).1.2.2.2.2.1, (_setListeners_grows _ _ t).1.2.2.1,
      _initLinks_links dom _ t hi]
    intro x hx
    rw [mem_firstOccurrences] at hx
    obtain ⟨r, hr, hrx⟩ := List.mem_map.mp hx
    rw [← hrx]
    unfold _initLinks at hi
    cases hm : _initLinksMap dom (_fillListeners c)._results [] (_fillListeners c) with
    | thrown p => rw [hm] at hi; cases hi
    | normal p => exact _initLinksMap_normal_anchors dom _ [] _ hne p hm r hr

theorem init_links_nodup (dom : Dom) (s : State) : s._links.Nodup →
    (init dom s).state._links.Nodup := by
  intro hs
  unfold init
  cases hi : _initLinks dom (_fillListeners s) with
  | thrown t =>
    simp only [Completion.andThen, state_thrown]
    rw [_initLinks_thrown_links dom _ t hi]
    exact hs
  | normal t =>
    simp only [Completion.andThen]
    rw [(_focus_focusFrame dom _ _).1.2.2.2.2.1, (_setListeners_grows _ _ t).1.2.2.1,
      _initLinks_links dom _ t hi]
    exact keepFirst_nodup [] _

/-- After `init()` every link of the list is the anchor of an entry, so it has a parent
element. -/
theorem init_links_parent (dom : Dom) (s : State)
    (hs : ∀ l, some l ∈ s._links → dom.parentElement l ≠ none) :
    ∀ l, some l ∈ (init dom s).state._links → dom.parentElement l ≠ none := by
  unfold init
  cases hi : _initLinks dom (_fillListeners s) with
  | thrown t =>
    simp only [Completion.andThen, state_thrown]
    rw [_initLinks_thrown_links dom _ t hi]
    exact hs
  | normal t =>
    simp only [Completion.andThen]
    rw [(_focus_focusFrame dom _ _).1.2.2.2.2.1, (_setListeners_grows _ _ t).1.2.2.1,
      _initLinks_links dom _ t hi]
    intro l hl
    rw [mem_firstOccurrences] at hl
    obtain ⟨r, -, hrl⟩ := List.mem_map.mp hl
    exact dom.anchor_parentElement r l hrl

/-- After `init()` on a fresh controller the state is in sync. -/
theorem init_inSync (dom : Dom) (results : List Elem) (searchForm activeElement : Elem)
    (activeClass linkClass : List Elem) :
    InSync dom (init dom (constructor results searchForm activeElement activeClass
      linkClass)).state := by
  have hpar := init_links_parent dom
    (constructor results searchForm activeElement activeClass linkClass)
    (fun l hl => by cases hl)
  generalize hc : constructor results searchForm activeElement activeClass linkClass = c
    at hpar
  have hc0 : c._indexActiveLink = 0 := by rw [← hc]; rfl
  have hca : c._activeElement = none := by rw [← hc]; rfl
  have hsf := setupFrame_trans (_fillListeners_setupFrame c)
    (_initLinks_setupFrame dom (_fillListeners c))
  unfold init at hpar ⊢
  cases hi : _initLinks dom (_fillListeners c) with
  | thrown t =>
    rw [hi] at hsf
    rw [state_thrown] at hsf
    simp only [Completion.andThen, state_thrown]
    intro w hw
    rw [hsf.2.2.2.2.2.2.1, hca] at hw
    cases hw
  | normal t =>
    rw [hi] at hsf hpar
    rw [state_normal] at hsf
    simp only [Completion.andThen] at hpar ⊢
    have hsf3 := setupFrame_trans hsf
      (_setListeners_setupFrame .document t._documentListeners t)
    have hl3 := (_setListeners_grows .document t._documentListeners t).1.2.2.1
    cases hg : arrayGet t._links 0 with
    | none =>
      rw [_focus_none, state_thrown]
      intro w hw
      rw [hsf3.2.2.2.2.2.2.1, hca] at hw
      cases hw
    | some l =>
      rw [hg] at hpar
      refine _focus_inSync dom _ l ?_ ?_
      · rw [hl3, hsf3.2.2.1, hc0]
        exact hg
      · refine hpar l ?_
        rw [(_focus_focusFrame dom _ _).1.2.2.2.2.1, hl3]
        exact arrayGet_mem _ _ l hg

theorem blur_bounds (L : List (Option Elem)) (t : State) (ht : t._links = L ∧ IndexInBounds t) :
    (_blur t).state._links = L ∧ IndexInBounds (_blur t).state := by
  have hf := blur_focusFrame t
  exact ⟨hf.1.2.2.2.2.1.trans ht.1,
    by unfold IndexInBounds; rw [hf.2.1, hf.1.2.2.2.2.1]; exact ht.2⟩

theorem moveFocus_bounds (L : List (Option Elem)) (e : Elem) (t : State)
    (ht : t._links = L ∧ IndexInBounds t) :
    (moveFocus e t)._links = L ∧ IndexInBounds (moveFocus e t) :=
  moveFocus_ind (fun t => t._links = L ∧ IndexInBounds t) (blur_bounds L) (fun _ _ h => h)
    e t ht

theorem blur_inSync (dom : Dom) (t : State) (h : InSync dom t) :
    InSync dom (_blur t).state := by
  cases ha : t._activeElement with
  | none =>
    rw [_blur_none t ha]
    exact h
  | some w =>
    rw [_blur_some t w ha]
    intro w' hw'
    cases hw'

theorem step_inSync (kc : KeyCodeTable) (dom : Dom) (L : List (Option Elem))
    (hall : ∀ x, x ∈ L → x ≠ none)
    (hpar : ∀ l, some l ∈ L → dom.parentElement l ≠ none) (ev : Event) (s : State)
    (h : (s._links = L ∧ IndexInBounds s) ∧ InSync dom s) :
    ((step kc dom ev s)._links = L ∧ IndexInBounds (step kc dom ev s)) ∧
      InSync dom (step kc dom ev s) := by
  refine step_ind kc dom
    (fun t => (t._links = L ∧ IndexInBounds t) ∧ InSync dom t)
    ?_ ?_ (fun _ _ h => h) ?_ ?_ ev s h
  · rintro t ⟨hb, -⟩
    exact ⟨_up_bounds dom L t hb,
      _up_inSync dom t (by rw [hb.1]; exact hall) (by rw [hb.1]; exact hpar) hb.2⟩
  · rintro t ⟨hb, -⟩
    exact ⟨_down_bounds dom L t hb,
      _down_inSync dom t (by rw [hb.1]; exact hall) (by rw [hb.1]; exact hpar) hb.2⟩
  · rintro t ⟨hb, hs⟩
    exact ⟨blur_bounds L t hb, blur_inSync dom t hs⟩
  · rintro t e ⟨hb, hs⟩
    exact ⟨moveFocus_bounds L e t hb,
      moveFocus_ind (InSync dom) (blur_inSync dom) (fun _ _ h => h) e t hs⟩

theorem arrayGet_inj_of_nodup (array : List (Option Elem)) (hnd : array.Nodup) (i j : Int)
    (l : Elem) (hi : arrayGet array i = some l) (hj : arrayGet array j = some l) : i = j := by
  obtain ⟨hi0, hi'⟩ := arrayGet_eq_some _ _ _ hi
  obtain ⟨hj0, hj'⟩ := arrayGet_eq_some _ _ _ hj
  have := nodup_getElem?_inj array hnd _ _ _ hi' hj'
  omega

/-- C16. In every state reached after one `init()` on a fresh controller that yields at
least one link, by key events, blur events and focus moves, the stored active element is
either none or the entry wrapper (two levels up) of the link at the active index. When the
links have pairwise different wrappers, the only index whose link has the stored element
as wrapper is the active index. -/
theorem active_element_in_sync (kc : KeyCodeTable) (dom : Dom) (results : List Elem)
    (searchForm activeElement : Elem) (A0 linkClass : List Elem) (evs : List Event)
    (s0 s : State)
    (hs0 : s0 = (init dom (constructor results searchForm activeElement A0 linkClass)).state)
    (hs : s = run kc dom evs s0) (hne : s0._links ≠ []) :
    (s._activeElement = none ∨
      ∃ l, arrayGet s._links s._indexActiveLink = some l ∧ s._activeElement = wrapper dom l) ∧
    ((∀ a b, some a ∈ s._links → some b ∈ s._links → wrapper dom a = wrapper dom b → a = b) →
      ∀ j l w, arrayGet s._links j = some l → wrapper dom l = some w →
        s._activeElement = some w → j = s._indexActiveLink) := by
  have hall : ∀ x, x ∈ s0._links → x ≠ none := by
    rw [hs0]
    exact init_links_nonnull dom results searchForm activeElement A0 linkClass
  have hnd : s0._links.Nodup := by
    rw [hs0]
    exact init_links_nodup dom _ List.nodup_nil
  have hidx : s0._indexActiveLink = 0 := by rw [hs0, init_index]; rfl
  have hlen : 0 < s0._links.length := List.length_pos.mpr hne
  have hpar : ∀ l, some l ∈ s0._links → dom.parentElement l ≠ none := by
    rw [hs0]
    exact init_links_parent dom _ (fun l hl => by cases hl)
  have h0 : (s0._links = s0._links ∧ IndexInBounds s0) ∧ InSync dom s0 := by
    refine ⟨⟨rfl, by unfold IndexInBounds; omega⟩, ?_⟩
    rw [hs0]
    exact init_inSync dom results searchForm activeElement A0 linkClass
  have hrun := run_ind kc dom
    (fun t => (t._links = s0._links ∧ IndexInBounds t) ∧ InSync dom t)
    (fun ev t => step_inSync kc dom s0._links hall hpar ev t) evs s0 h0
  rw [← hs] at hrun
  obtain ⟨⟨hl, -⟩, hsync⟩ := hrun
  have part1 : s._activeElement = none ∨
      ∃ l, arrayGet s._links s._indexActiveLink = some l ∧
        s._activeElement = wrapper dom l := by
    cases ha : s._activeElement with
    | none => exact Or.inl rfl
    | some w =>
      obtain ⟨l, h1, h2⟩ := hsync w ha
      exact Or.inr ⟨l, h1, h2.symm⟩
  refine ⟨part1, ?_⟩
  intro hinj j l w hj hw ha
  obtain ⟨l0, h1, h2⟩ := hsync w ha
  have hll : l0 = l :=
    hinj _ _ (arrayGet_mem _ _ _ h1) (arrayGet_mem _ _ _ hj) (by rw [h2, hw])
  rw [hll] at h1
  exact arrayGet_inj_of_nodup s._links (by rw [hl]; exact hnd) j _ l hj h1

/-- C16 on the three-link page after Down, a click on link 12 and Tab: index 2, link 32
focused, entry 30 stored. -/
theorem active_element_in_sync_witness :
    ((init page3 ctl3).state = (init page3 (constructor [10, 20, 30] 1 0 [] [])).state ∧
      (init page3 ctl3).state._links ≠ []) ∧
    ((run domKeyCodes page3 [.keydown 40, .focusMove 12, .keydown 9]
        (init page3 ctl3).state)._activeElement = none ∨
      ∃ l, arrayGet
          (run domKeyCodes page3 [.keydown 40, .focusMove 12, .keydown 9]
            (init page3 ctl3).state)._links
          (run domKeyCodes page3 [.keydown 40, .focusMove 12, .keydown 9]
            (init page3 ctl3).state)._indexActiveLink = some l ∧
        (run domKeyCodes page3 [.keydown 40, .focusMove 12, .keydown 9]
          (init page3 ctl3).state)._activeElement = wrapper page3 l) :=
  ⟨⟨rfl, by decide⟩,
    (active_element_in_sync domKeyCodes page3 [10, 20, 30] 1 0 [] []
      [.keydown 40, .focusMove 12, .keydown 9] (init page3 ctl3).state _ rfl rfl
      (by decide)).1⟩

/-! ## `_blur` without a stored active element -/

/-- C17. The handler `_blur` returns exactly when an active element is stored. With none
stored it throws at `this._activeElement.classList`, after setting the any-link-focused
flag to `false` and with nothing else changed (index, `active` classes); so the second of
two blur events in a row throws, as does a blur before any `_focus` (fresh controller) and
the blur of a link the user focused directly (three-link page: click on link 22, then
focus leaves it). -/
theorem blur_faults_without_active (s : State) :
    ((_blur s).isNormal = true ↔ s._activeElement ≠ none) ∧
    _blur { s with _activeElement := none } =
      .thrown { s with _activeElement := none, _isAnyLinkFocused := false } ∧
    (_blur (_blur s).state).isNormal = false ∧
    ((_blur ctl3).isNormal = false ∧
      (run domKeyCodes page3 [.focusMove 22] (init page3 ctl3).state).activeElement = 22 ∧
      (_blur (run domKeyCodes page3 [.focusMove 22] (init page3 ctl3).state)).isNormal =
        false ∧
      (_blur (run domKeyCodes page3 [.focusMove 22] (init page3 ctl3).state)).state =
        { run domKeyCodes page3 [.focusMove 22] (init page3 ctl3).state with
          _isAnyLinkFocused := false }) := by
  refine ⟨?_, rfl, ?_, by decide⟩
  · cases ha : s._activeElement with
    | none =>
      rw [_blur_none s ha]
      exact ⟨fun h => (by cases h), fun h => absurd rfl h⟩
    | some w =>
      rw [_blur_some s w ha]
      exact ⟨fun _ h => (by cases h), fun _ => rfl⟩
  · cases ha : s._activeElement with
    | none =>
      rw [_blur_none s ha, state_thrown, _blur_none { s with _isAnyLinkFocused := false } ha]
      rfl
    | some w =>
      rw [_blur_some s w ha, state_normal, _blur_none _ rfl]
      rfl

/-! ## Repeated Down and Up -/

theorem reachable_docListens (kc : KeyCodeTable) (dom : Dom) (s : State)
    (hr : Reachable kc dom s) (hne : s._links ≠ []) : DocListens s := by
  rcases (reachable_listens kc dom s hr).2 with h | h
  · exact h
  · exact absurd h.2.2.1 hne

theorem _focus_gate (dom : Dom) (link : Option Elem) (s : State)
    (hl : ∀ l, link = some l → l ≠ s._searchForm) (hg : s.activeElement ≠ s._searchForm) :
    (_focus dom link s).state.activeElement ≠ (_focus dom link s).state._searchForm := by
  rw [(_focus_focusFrame dom link s).1.1]
  cases link with
  | none => exact hg
  | some l =>
    rw [_focus_state_activeElement]
    rcases focus_activeElement_cases dom l s with h | h
    · rw [h]; exact hl l rfl
    · rw [h]; exact hg

theorem _down_gate (dom : Dom) (s : State) (hsf : some s._searchForm ∉ s._links)
    (hg : s.activeElement ≠ s._searchForm) :
    (_down dom s).state.activeElement ≠ (_down dom s).state._searchForm := by
  unfold _down
  refine _focus_gate dom _ _ ?_ ?_
  · intro l hl hc
    apply hsf
    have := arrayGet_mem _ _ l hl
    rw [hc] at this
    split at this <;> exact this
  · split <;> exact hg

theorem _up_gate (dom : Dom) (s : State) (hsf : some s._searchForm ∉ s._links)
    (hg : s.activeElement ≠ s._searchForm) :
    (_up dom s).state.activeElement ≠ (_up dom s).state._searchForm := by
  unfold _up
  refine _focus_gate dom _ _ ?_ ?_
  · intro l hl hc
    apply hsf
    have := arrayGet_mem _ _ l hl
    rw [hc] at this
    split at this <;> exact this
  · split <;> exact hg

theorem step_keydown_down (kc : KeyCodeTable) (dom : Dom) (s : State) (hk : kc.Distinct)
    (hd : DocListens s) (hg : s.activeElement ≠ s._searchForm) :
    step kc dom (.keydown kc.DOWN) s = (_down dom s).state := by
  simp only [step]
  rw [dispatchKey_keydown kc dom _ s hd, _keydown_down kc dom _ s hk hg rfl, withEvent_state]

theorem step_keydown_up (kc : KeyCodeTable) (dom : Dom) (s : State) (hk : kc.Distinct)
    (hd : DocListens s) (hg : s.activeElement ≠ s._searchForm) :
    step kc dom (.keydown kc.UP) s = (_up dom s).state := by
  simp only [step]
  rw [dispatchKey_keydown kc dom _ s hd, _keydown_up kc dom _ s hk hg rfl, withEvent_state]

theorem links_ne_nil_of_bounds (s : State) (hb : IndexInBounds s) : s._links ≠ [] := by
  intro h
  unfold IndexInBounds at hb
  rw [h] at hb
  simp at hb
  omega

theorem run_downs (kc : KeyCodeTable) (dom : Dom) (hk : kc.Distinct) (k : Nat) :
    ∀ s, Reachable kc dom s → some s._searchForm ∉ s._links →
      s.activeElement ≠ s._searchForm → IndexInBounds s →
      (run kc dom (List.replicate k (.keydown kc.DOWN)) s)._indexActiveLink =
        min (s._indexActiveLink + (k : Int)) ((s._links.length : Int) - 1) := by
  induction k with
  | zero =>
    intro s _ _ _ hb
    unfold IndexInBounds at hb
    show s._indexActiveLink = _
    simp only [Nat.cast_zero, add_zero]
    omega
  | succ k ih =>
    intro s hr hsf hg hb
    have hd := reachable_docListens kc dom s hr (links_ne_nil_of_bounds s hb)
    have hstep := step_keydown_down kc dom s hk hd hg
    have hfr := _down_frame dom s
    have hb' := (_down_bounds dom s._links s ⟨rfl, hb⟩).2
    have hr' := reachable_step kc dom (.keydown kc.DOWN) s hr
    rw [hstep] at hr'
    have hsf' : some (_down dom s).state._searchForm ∉ (_down dom s).state._links := by
      rw [hfr.1, hfr.2.2.2.2.1]; exact hsf
    have := ih (_down dom s).state hr' hsf' (_down_gate dom s hsf hg) hb'
    rw [List.replicate_succ]
    show (run kc dom (List.replicate k (.keydown kc.DOWN))
      (step kc dom (.keydown kc.DOWN) s))._indexActiveLink = _
    rw [hstep, this, _down_index, hfr.2.2.2.2.1]
    unfold IndexInBounds at hb
    push_cast
    split <;> omega

theorem run_ups (kc : KeyCodeTable) (dom : Dom) (hk : kc.Distinct) (k : Nat) :
    ∀ s, Reachable kc dom s → some s._searchForm ∉ s._links →
      s.activeElement ≠ s._searchForm → IndexInBounds s →
      (run kc dom (List.replicate k (.keydown kc.UP)) s)._indexActiveLink =
        max (s._indexActiveLink - (k : Int)) 0 := by
  induction k with
  | zero =>
    intro s _ _ _ hb
    unfold IndexInBounds at hb
    show s._indexActiveLink = _
    simp only [Nat.cast_zero, sub_zero]
    omega
  | succ k ih =>
    intro s hr hsf hg hb
    have hd := reachable_docListens kc dom s hr (links_ne_nil_of_bounds s hb)
    have hstep := step_keydown_up kc dom s hk hd hg
    have hfr := _up_frame dom s
    have hb' := (_up_bounds dom s._links s ⟨rfl, hb⟩).2
    have hr' := reachable_step kc dom (.keydown kc.UP) s hr
    rw [hstep] at hr'
    have hsf' : some (_up dom s).state._searchForm ∉ (_up dom s).state._links := by
      rw [hfr.1, hfr.2.2.2.2.1]; exact hsf
    have := ih (_up dom s).state hr' hsf' (_up_gate dom s hsf hg) hb'
    rw [List.replicate_succ]
    show (run kc dom (List.replicate k (.keydown kc.UP))
      (step kc dom (.keydown kc.UP) s))._indexActiveLink = _
    rw [hstep, this, _up_index]
    unfold IndexInBounds at hb
    push_cast
    split <;> omega

/-- C18. In a reachable state with pairwise different key codes, the search input neither
focused nor one of the links, and the index `i` in `[0, n - 1]`: `k` Down keydowns in a
row leave the index at `min (i + k) (n - 1)` and `k` Up keydowns at `max (i - k) 0`. So
from index 0 exactly `j` Down presses reach index `j ≤ n - 1`, and presses at an end leave
the index there. -/
theorem repeated_presses_clamp (kc : KeyCodeTable) (dom : Dom) (s : State) (k : Nat)
    (hk : kc.Distinct) (hr : Reachable kc dom s) (hsf : some s._searchForm ∉ s._links)
    (hg : s.activeElement ≠ s._searchForm) (hb : IndexInBounds s) :
    (run kc dom (List.replicate k (.keydown kc.DOWN)) s)._indexActiveLink =
      min (s._indexActiveLink + (k : Int)) ((s._links.length : Int) - 1) ∧
    (run kc dom (List.replicate k (.keydown kc.UP)) s)._indexActiveLink =
      max (s._indexActiveLink - (k : Int)) 0 ∧
    (s._indexActiveLink = 0 → (k : Int) ≤ (s._links.length : Int) - 1 →
      (run kc dom (List.replicate k (.keydown kc.DOWN)) s)._indexActiveLink = (k : Int)) ∧
    (s._indexActiveLink = (s._links.length : Int) - 1 →
      (run kc dom (List.replicate k (.keydown kc.DOWN)) s)._indexActiveLink =
        s._indexActiveLink) ∧
    (s._indexActiveLink = 0 →
      (run kc dom (List.replicate k (.keydown kc.UP)) s)._indexActiveLink = 0) := by
  have h1 := run_downs kc dom hk k s hr hsf hg hb
  have h2 := run_ups kc dom hk k s hr hsf hg hb
  refine ⟨h1, h2, ?_, ?_, ?_⟩
  · intro h0 hle
    rw [h1, h0]
    omega
  · intro hlast
    rw [h1]
    omega
  · intro h0
    rw [h2, h0]
    omega

/-- C18 on the three-link page right after `init()`: two Down presses reach index 2. -/
theorem repeated_presses_clamp_witness :
    (domKeyCodes.Distinct ∧ Reachable domKeyCodes page3 (init page3 ctl3).state ∧
      some (init page3 ctl3).state._searchForm ∉ (init page3 ctl3).state._links ∧
      (init page3 ctl3).state.activeElement ≠ (init page3 ctl3).state._searchForm ∧
      IndexInBounds (init page3 ctl3).state) ∧
    (run domKeyCodes page3 (List.replicate 2 (.keydown domKeyCodes.DOWN))
      (init page3 ctl3).state)._indexActiveLink =
        min ((init page3 ctl3).state._indexActiveLink + ((2 : Nat) : Int))
          (((init page3 ctl3).state._links.length : Int) - 1) :=
  ⟨⟨by decide, ⟨[10, 20, 30], 1, 0, [], [], [], rfl⟩, by decide, by decide, by decide⟩,
    (repeated_presses_clamp domKeyCodes page3 (init page3 ctl3).state 2 (by decide)
      ⟨[10, 20, 30], 1, 0, [], [], [], rfl⟩ (by decide) (by decide) (by decide)).1⟩

end FocusControl
